import Mathlib

/-!
Verification development for the octree query/serialization core
(`src/octree/mod.rs`) of the point_cloud_viewer repository.

The Rust source is shallowly embedded as executable Lean definitions:

* `roundHE` / `roundF32` model Rust `f32` rounding (round to nearest, ties
  to even, 24-bit significand, unbounded exponent).  All `f32` values that
  arise in the serializer are in the normal range, far away from overflow
  and subnormal thresholds, so the unbounded-exponent model agrees with
  IEEE binary32 on every value the embedded code can produce.
* `numPointsForLod` models the expression
  `(points.len() as f32 / node.level_of_detail as f32).ceil() as usize`.
* `get_nodes_as_binary_blob` models the serializer including its panic
  behaviour (`Option` layer: `none` = panic) and error propagation
  (`Except` layer).
* `get_visible_nodes` models the visibility traversal.  The geometry
  library (`math` module: frustum, cube, projection) is external to the
  source under verification; it is abstracted by parameters, with pixel
  sizes modelled as exact rationals.
* `octreeNew` models `Octree::new` over an abstract directory listing.
-/

namespace PointCloud

/-! ## Rational model of f32 rounding -/

/-- Round a rational to the nearest integer, ties to even. -/
def roundHE (q : ℚ) : ℤ :=
  if q - ⌊q⌋ < 1/2 then ⌊q⌋
  else if 1/2 < q - ⌊q⌋ then ⌊q⌋ + 1
  else if ⌊q⌋ % 2 = 0 then ⌊q⌋ else ⌊q⌋ + 1

theorem roundHE_intCast (z : ℤ) : roundHE (z : ℚ) = z := by
  simp [roundHE]

theorem roundHE_le (q : ℚ) : (roundHE q : ℚ) ≤ q + 1/2 := by
  have h0 : (⌊q⌋ : ℚ) ≤ q := Int.floor_le q
  unfold roundHE
  split
  · linarith
  · split
    · push_cast
      linarith
    · split
      · linarith
      · rename_i h1 h2 _
        push_cast
        linarith

theorem le_roundHE (q : ℚ) : q - 1/2 ≤ (roundHE q : ℚ) := by
  have h0 : q - 1 < (⌊q⌋ : ℚ) := by
    have := Int.sub_one_lt_floor q
    linarith
  unfold roundHE
  split
  · rename_i h1
    linarith
  · split
    · push_cast
      linarith
    · split
      · rename_i h1 h2 _
        linarith
      · push_cast
        linarith

/-- Rational model of rounding a positive value to the f32 grid:
round to nearest with a 24-bit significand (ties to even), with an
unbounded exponent range.  Nonpositive inputs are mapped to 0 (the only
nonpositive value fed to it by the embedded code is 0 itself). -/
def roundF32 (q : ℚ) : ℚ :=
  if 0 < q then (roundHE (q / 2 ^ (Int.log 2 q - 23)) : ℚ) * 2 ^ (Int.log 2 q - 23) else 0

theorem roundF32_zero : roundF32 0 = 0 := by
  simp [roundF32]

theorem roundF32_of_pos {q : ℚ} (hq : 0 < q) :
    roundF32 q = (roundHE (q / 2 ^ (Int.log 2 q - 23)) : ℚ) * 2 ^ (Int.log 2 q - 23) := by
  simp [roundF32, hq]

theorem zpow_pos_two (e : ℤ) : (0:ℚ) < 2 ^ e :=
  zpow_pos (by norm_num) e

theorem roundF32_le {q : ℚ} (hq : 0 < q) :
    roundF32 q ≤ q + 2 ^ (Int.log 2 q - 24) := by
  rw [roundF32_of_pos hq]
  set e : ℤ := Int.log 2 q with he
  have hd : (0:ℚ) < 2 ^ (e - 23) := zpow_pos_two _
  have h1 : (roundHE (q / 2 ^ (e - 23)) : ℚ) ≤ q / 2 ^ (e - 23) + 1/2 := roundHE_le _
  have h2 : (roundHE (q / 2 ^ (e - 23)) : ℚ) * 2 ^ (e - 23) ≤
      (q / 2 ^ (e - 23) + 1/2) * 2 ^ (e - 23) := by
    exact mul_le_mul_of_nonneg_right h1 (le_of_lt hd)
  have h3 : (q / 2 ^ (e - 23) + 1/2) * 2 ^ (e - 23) = q + 2 ^ (e - 23) / 2 := by
    field_simp
    ring
  have h4 : (2:ℚ) ^ (e - 23) / 2 = 2 ^ (e - 24) := by
    rw [zpow_sub₀ (by norm_num : (2:ℚ) ≠ 0), zpow_sub₀ (by norm_num : (2:ℚ) ≠ 0)]
    norm_num
    ring
  rw [h3, h4] at h2
  exact h2

theorem le_roundF32 {q : ℚ} (hq : 0 < q) :
    q - 2 ^ (Int.log 2 q - 24) ≤ roundF32 q := by
  rw [roundF32_of_pos hq]
  set e : ℤ := Int.log 2 q with he
  have hd : (0:ℚ) < 2 ^ (e - 23) := zpow_pos_two _
  have h1 : q / 2 ^ (e - 23) - 1/2 ≤ (roundHE (q / 2 ^ (e - 23)) : ℚ) := le_roundHE _
  have h2 : (q / 2 ^ (e - 23) - 1/2) * 2 ^ (e - 23) ≤
      (roundHE (q / 2 ^ (e - 23)) : ℚ) * 2 ^ (e - 23) := by
    exact mul_le_mul_of_nonneg_right h1 (le_of_lt hd)
  have h3 : (q / 2 ^ (e - 23) - 1/2) * 2 ^ (e - 23) = q - 2 ^ (e - 23) / 2 := by
    field_simp
    ring
  have h4 : (2:ℚ) ^ (e - 23) / 2 = 2 ^ (e - 24) := by
    rw [zpow_sub₀ (by norm_num : (2:ℚ) ≠ 0), zpow_sub₀ (by norm_num : (2:ℚ) ≠ 0)]
    norm_num
    ring
  rw [h3, h4] at h2
  exact h2

theorem roundF32_eq_of_grid {q : ℚ} (hq : 0 < q) (z : ℤ)
    (hz : q = (z : ℚ) * 2 ^ (Int.log 2 q - 23)) : roundF32 q = q := by
  rw [roundF32_of_pos hq]
  set e : ℤ := Int.log 2 q with he
  have hd : (2:ℚ) ^ (e - 23) ≠ 0 := ne_of_gt (zpow_pos_two _)
  have hquot : q / 2 ^ (e - 23) = (z : ℚ) := by
    rw [hz]
    exact mul_div_cancel_right₀ _ hd
  rw [hquot, roundHE_intCast, ← hz]

theorem roundF32_pos {q : ℚ} (hq : 0 < q) : 0 < roundF32 q := by
  have h1 := le_roundF32 hq
  have h2 : ((2:ℕ):ℚ) ^ Int.log 2 q ≤ q := Int.zpow_log_le_self (by norm_num) hq
  have h2' : (2:ℚ) ^ Int.log 2 q ≤ q := by
    have : ((2:ℕ):ℚ) = (2:ℚ) := by norm_num
    rwa [this] at h2
  have h3 : (2:ℚ) ^ (Int.log 2 q - 24) < 2 ^ Int.log 2 q := by
    apply zpow_lt_zpow_right₀ (by norm_num : (1:ℚ) < 2)
    omega
  linarith

/-- Determination of the binary exponent from two-sided bounds. -/
theorem log2_eq_of_bounds {q : ℚ} {e : ℤ} (h1 : (2:ℚ) ^ e ≤ q) (h2 : q < 2 ^ (e + 1)) :
    Int.log 2 q = e := by
  have hq : 0 < q := lt_of_lt_of_le (zpow_pos_two e) h1
  have hcast : ((2:ℕ):ℚ) = (2:ℚ) := by norm_num
  have hle : e ≤ Int.log 2 q := by
    have := Int.log_zpow (R := ℚ) (by norm_num : 1 < 2) e
    rw [hcast] at this
    calc e = Int.log 2 ((2:ℚ) ^ e) := this.symm
    _ ≤ Int.log 2 q := Int.log_mono_right (zpow_pos_two e) h1
  have hge : Int.log 2 q ≤ e := by
    by_contra hlt
    push_neg at hlt
    have h4 : (2:ℚ) ^ (e + 1) ≤ 2 ^ (Int.log 2 q) := by
      apply zpow_le_zpow_right₀ (by norm_num : (1:ℚ) ≤ 2)
      omega
    have h5 : ((2:ℕ):ℚ) ^ (Int.log 2 q) ≤ q := Int.zpow_log_le_self (by norm_num) hq
    rw [hcast] at h5
    linarith
  omega

/-- Two multiples of a positive grid step within less than one step of each
other are ordered. -/
theorem grid_le {d : ℚ} (hd : 0 < d) {z w : ℤ} (h : (z:ℚ) * d < (w:ℚ) * d + d) :
    (z:ℚ) * d ≤ (w:ℚ) * d := by
  have h1 : (z:ℚ) * d < ((w:ℚ) + 1) * d := by linarith
  have h2 : (z:ℚ) < (w:ℚ) + 1 := lt_of_mul_lt_mul_right (by linarith) (le_of_lt hd)
  have h3 : z < w + 1 := by exact_mod_cast h2
  have h4 : z ≤ w := by omega
  have h5 : (z:ℚ) ≤ (w:ℚ) := by exact_mod_cast h4
  exact mul_le_mul_of_nonneg_right h5 (le_of_lt hd)

/-- Natural numbers up to 2 to the 24 are exactly representable. -/
theorem roundF32_natCast {n : ℕ} (h : n ≤ 2^24) : roundF32 (n:ℚ) = n := by
  rcases Nat.eq_zero_or_pos n with h0 | h0
  · subst h0
    simp [roundF32]
  have hq : (0:ℚ) < n := by exact_mod_cast h0
  have hlog : Int.log 2 ((n:ℚ)) = (Nat.log 2 n : ℤ) := Int.log_natCast (R := ℚ) 2 n
  have he_ub : (Nat.log 2 n : ℤ) ≤ 24 := by
    have h25 : n < 2 ^ 25 := lt_of_le_of_lt h (by norm_num)
    have := (Nat.lt_pow_iff_log_lt (by norm_num : 1 < 2) (by omega : n ≠ 0)).1 h25
    exact_mod_cast Nat.le_of_lt_succ this
  have he_lb : (0:ℤ) ≤ (Nat.log 2 n : ℤ) := by positivity
  by_cases he : (Nat.log 2 n : ℤ) ≤ 23
  · apply roundF32_eq_of_grid hq (n * 2 ^ ((23 - (Nat.log 2 n : ℤ)).toNat))
    rw [hlog]
    push_cast
    rw [← zpow_natCast (2:ℚ) ((23 - (Nat.log 2 n : ℤ)).toNat),
      Int.toNat_of_nonneg (by omega : (0:ℤ) ≤ 23 - (Nat.log 2 n : ℤ)),
      mul_assoc, ← zpow_add₀ (by norm_num : (2:ℚ) ≠ 0)]
    simp
  · have he24 : (Nat.log 2 n : ℤ) = 24 := by omega
    have hpow : ((2:ℕ):ℚ) ^ (Int.log 2 ((n:ℚ))) ≤ (n:ℚ) :=
      Int.zpow_log_le_self (by norm_num) hq
    rw [hlog, he24] at hpow
    have hn24 : (2:ℚ)^(24:ℤ) ≤ (n:ℚ) := by
      have hc : ((2:ℕ):ℚ) = (2:ℚ) := by norm_num
      rwa [hc] at hpow
    have hn' : n = 2 ^ 24 := by
      have h1 : (2:ℚ)^(24:ℤ) = ((2^24 : ℕ) : ℚ) := by norm_num
      rw [h1] at hn24
      have : (2^24 : ℕ) ≤ n := by exact_mod_cast hn24
      omega
    apply roundF32_eq_of_grid hq (2 ^ 23)
    rw [hlog, he24, hn']
    push_cast
    norm_num

/-- Ceiling of a rational quotient of naturals as natural division. -/
theorem ceil_natCast_div (n L : ℕ) (hL : 1 ≤ L) :
    ⌈(n:ℚ) / L⌉ = (((n + L - 1) / L : ℕ) : ℤ) := by
  have hL0 : (0:ℚ) < L := by exact_mod_cast hL
  rcases Nat.eq_zero_or_pos n with h0 | h0
  · subst h0
    have hz : (L - 1) / L = 0 := Nat.div_eq_of_lt (by omega)
    simp [hz]
  set d : ℕ := (n + L - 1) / L with hd
  have h1 : L * d + (n + L - 1) % L = n + L - 1 := Nat.div_add_mod (n + L - 1) L
  have h2 : (n + L - 1) % L < L := Nat.mod_lt _ (by omega)
  set P : ℕ := L * d with hP
  have hn_le : n ≤ P := by omega
  have hlt : P < n + L := by omega
  have hcast1 : (P:ℚ) < (n:ℚ) + L := by exact_mod_cast hlt
  have hcast2 : (n:ℚ) ≤ (P:ℚ) := by exact_mod_cast hn_le
  have hPq : (P:ℚ) = (L:ℚ) * d := by
    rw [hP]
    push_cast
    ring
  rw [Int.ceil_eq_iff]
  constructor
  · push_cast
    rw [lt_div_iff₀ hL0]
    rw [hPq] at hcast1
    linarith
  · push_cast
    rw [div_le_iff₀ hL0]
    rw [hPq] at hcast2
    linarith

theorem two_zpow_le_self {q : ℚ} (hq : 0 < q) : (2:ℚ) ^ (Int.log 2 q) ≤ q := by
  have h := Int.zpow_log_le_self (R := ℚ) (b := 2) (by norm_num) hq
  have hc : ((2:ℕ):ℚ) = (2:ℚ) := by norm_num
  rwa [hc] at h

theorem self_lt_two_zpow_succ (q : ℚ) : q < (2:ℚ) ^ (Int.log 2 q + 1) := by
  have h := Int.lt_zpow_succ_log_self (R := ℚ) (b := 2) (by norm_num) q
  have hc : ((2:ℕ):ℚ) = (2:ℚ) := by norm_num
  rwa [hc] at h

theorem two_zpow_add (a b : ℤ) : (2:ℚ) ^ (a + b) = 2 ^ a * 2 ^ b :=
  zpow_add₀ (by norm_num) a b

/-- Representable integers are fixed by rounding (via the natural-number case). -/
theorem roundF32_intCast {c : ℤ} (h1 : 0 < c) (h2 : c ≤ 2^24) : roundF32 (c:ℚ) = c := by
  have hc : (c:ℚ) = ((c.toNat : ℕ) : ℚ) := by
    exact_mod_cast (congrArg (fun z : ℤ => (z : ℚ)) (Int.toNat_of_nonneg (le_of_lt h1))).symm
  rw [hc, roundF32_natCast (by omega : c.toNat ≤ 2^24)]

/-- Central lemma: for stored point counts up to 2 to the 24 and any
positive stride, the f32 computation of the retained count agrees with
the exact rational ceiling. -/
theorem ceil_roundF32_div_eq (n L : ℕ) (hn : n ≤ 2^24) (hL : 1 ≤ L) :
    ⌈roundF32 ((n : ℚ) / roundF32 (L:ℚ))⌉ = ⌈(n : ℚ) / (L:ℚ)⌉ := by
  have hL0 : (0:ℚ) < L := by exact_mod_cast hL
  rcases Nat.eq_zero_or_pos n with h0 | h0
  · subst h0
    simp [roundF32_zero]
  have hn0 : (0:ℚ) < n := by exact_mod_cast h0
  by_cases hL24 : L ≤ 2^24
  · -- the stride itself is exactly representable
    rw [roundF32_natCast hL24]
    set x : ℚ := (n:ℚ) / (L:ℚ) with hxdef
    have hx : 0 < x := div_pos hn0 hL0
    set c : ℤ := ⌈x⌉ with hcdef
    have hc1 : 1 ≤ c := Int.ceil_pos.2 hx
    have hcx : x ≤ (c:ℚ) := Int.le_ceil x
    have hcl : (c:ℚ) - 1 < x := by
      have := Int.ceil_lt_add_one x
      push_cast at this
      linarith
    have hxn : x ≤ (n:ℚ) := div_le_self (le_of_lt hn0) (by exact_mod_cast hL)
    have hcn : c ≤ (n:ℤ) := by
      have h1 : c ≤ ⌈(n:ℚ)⌉ := Int.ceil_le_ceil hxn
      rwa [Int.ceil_natCast] at h1
    have hcle : c ≤ 2^24 := le_trans hcn (by exact_mod_cast hn)
    by_cases hxc : x = (c:ℚ)
    · rw [hxc, roundF32_intCast hc1 hcle]
      exact Int.ceil_intCast c
    · have hxlt : x < (c:ℚ) := lt_of_le_of_ne hcx hxc
      set e : ℤ := Int.log 2 x with hedef
      have h2e : (2:ℚ) ^ e ≤ x := two_zpow_le_self hx
      have hx24 : x < (2:ℚ) ^ (24:ℤ) := by
        have hc24 : (c:ℚ) ≤ (2:ℚ)^(24:ℤ) := by
          have ha : (c:ℚ) ≤ (n:ℚ) := by exact_mod_cast hcn
          have hb : (n:ℚ) ≤ ((2^24 : ℕ) : ℚ) := by exact_mod_cast hn
          have hcc : ((2^24 : ℕ) : ℚ) = (2:ℚ)^(24:ℤ) := by norm_num
          linarith [hcc ▸ le_trans ha hb]
        linarith
      have he23 : e ≤ 23 := by
        by_contra hcon
        push_neg at hcon
        have h24e : (2:ℚ) ^ (24:ℤ) ≤ (2:ℚ) ^ e :=
          zpow_le_zpow_right₀ (by norm_num) (by omega)
        linarith
      have hδpos : (0:ℚ) < 2^(e-23) := zpow_pos_two _
      -- lower bound on x through the denominator L
      have hstep : (c:ℚ) - 1 + 1/L ≤ x := by
        have h1 : ((c:ℚ) - 1) * L < n := by
          rw [hxdef] at hcl
          exact (lt_div_iff₀ hL0).1 hcl
        have h2 : ((c - 1) * (L:ℤ) : ℤ) < (n:ℤ) := by exact_mod_cast h1
        have h3 : ((c - 1) * (L:ℤ) + 1 : ℤ) ≤ (n:ℤ) := by omega
        have h4 : (((c:ℚ) - 1) * L + 1 : ℚ) ≤ (n:ℚ) := by exact_mod_cast h3
        have h5 : ((c:ℚ) - 1 + 1/L) = (((c:ℚ) - 1) * L + 1) / L := by
          field_simp
        rw [hxdef, h5]
        gcongr
      have hup : roundF32 x ≤ (c:ℚ) := by
        have h1 : roundF32 x ≤ x + 2^(e-24) := roundF32_le hx
        have h2 : (2:ℚ)^(e-24) < 2^(e-23) := zpow_lt_zpow_right₀ (by norm_num) (by omega)
        have h3 : roundF32 x < (c:ℚ) + 2^(e-23) := by linarith
        have hgrid : roundF32 x = ((roundHE (x / 2^(e-23)) : ℤ):ℚ) * 2^(e-23) :=
          roundF32_of_pos hx
        have hw : ((c * 2^((23-e).toNat) : ℤ) : ℚ) * 2^(e-23) = (c:ℚ) := by
          push_cast
          rw [← zpow_natCast (2:ℚ) ((23-e).toNat),
            Int.toNat_of_nonneg (by omega : (0:ℤ) ≤ 23 - e),
            mul_assoc, ← two_zpow_add]
          simp
        have hlt' : ((roundHE (x / 2^(e-23)) : ℤ):ℚ) * 2^(e-23) <
            ((c * 2^((23-e).toNat) : ℤ) : ℚ) * 2^(e-23) + 2^(e-23) := by
          rw [hw, ← hgrid]
          exact h3
        have h4 := grid_le hδpos hlt'
        rw [hw] at h4
        rw [hgrid]
        exact h4
      have hlo : (c:ℚ) - 1 < roundF32 x := by
        by_cases hxe : x = (2:ℚ)^e
        · have hrx : roundF32 x = x := by
            apply roundF32_eq_of_grid hx (2^23)
            have hc23 : (((2:ℤ)^23 : ℤ):ℚ) = (2:ℚ)^(23:ℤ) := by norm_num
            have hrhs : (((2:ℤ)^23 : ℤ):ℚ) * 2^(e-23) = (2:ℚ)^e := by
              rw [hc23, ← two_zpow_add]
              congr 1
              omega
            show x = (((2:ℤ)^23 : ℤ):ℚ) * 2^(e - 23)
            rw [hrhs]
            exact hxe
          rw [hrx]
          exact hcl
        · have hxe' : (2:ℚ)^e < x := lt_of_le_of_ne h2e (fun hh => hxe hh.symm)
          have hkey : (2:ℚ)^(e-24) < 1/L := by
            have ha : (2:ℚ)^(e-24) = 2^e * 2^(-24:ℤ) := by
              rw [← two_zpow_add]
              congr 1
            have hb : (2:ℚ)^e * 2^(-24:ℤ) < x * 2^(-24:ℤ) :=
              mul_lt_mul_of_pos_right hxe' (zpow_pos_two _)
            have hcq : x ≤ (2:ℚ)^(24:ℤ) / L := by
              rw [hxdef]
              have hnq : (n:ℚ) ≤ (2:ℚ)^(24:ℤ) := by
                have h1 : (n:ℚ) ≤ ((2^24 : ℕ) : ℚ) := by exact_mod_cast hn
                have h2 : ((2^24 : ℕ) : ℚ) = (2:ℚ)^(24:ℤ) := by norm_num
                linarith [h2 ▸ h1]
              gcongr
            have hd2 : x * 2^(-24:ℤ) ≤ ((2:ℚ)^(24:ℤ) / L) * 2^(-24:ℤ) :=
              mul_le_mul_of_nonneg_right hcq (le_of_lt (zpow_pos_two _))
            have he2 : ((2:ℚ)^(24:ℤ) / L) * 2^(-24:ℤ) = 1/L := by
              have hLne : (L:ℚ) ≠ 0 := ne_of_gt hL0
              rw [(by norm_num : (2:ℚ)^(24:ℤ) = 16777216),
                (by norm_num : (2:ℚ)^(-24:ℤ) = 1/16777216)]
              field_simp
              ring
            calc (2:ℚ)^(e-24) = 2^e * 2^(-24:ℤ) := ha
            _ < x * 2^(-24:ℤ) := hb
            _ ≤ ((2:ℚ)^(24:ℤ) / L) * 2^(-24:ℤ) := hd2
            _ = 1/L := he2
          have h5 : x - 2^(e-24) ≤ roundF32 x := le_roundF32 hx
          linarith
      exact Int.ceil_eq_iff.2 ⟨by linarith, hup⟩
  · push_neg at hL24
    have hRHS : ⌈(n:ℚ)/(L:ℚ)⌉ = 1 := by
      rw [Int.ceil_eq_iff]
      refine ⟨by push_cast; have hdp := div_pos hn0 hL0; linarith, ?_⟩
      push_cast
      rw [div_le_one hL0]
      exact_mod_cast (by omega : n ≤ L)
    rw [hRHS]
    have hLq : (0:ℚ) < (L:ℚ) := hL0
    have heLnat : Int.log 2 ((L:ℚ)) = (Nat.log 2 L : ℤ) := Int.log_natCast (R := ℚ) 2 L
    have heL24 : 24 ≤ Int.log 2 ((L:ℚ)) := by
      rw [heLnat]
      have hlog24 : 24 ≤ Nat.log 2 L :=
        (Nat.pow_le_iff_le_log (by norm_num) (by omega)).1 (by omega : 2^24 ≤ L)
      exact_mod_cast hlog24
    have hB1 : (L:ℚ) - 2^(Int.log 2 ((L:ℚ)) - 24) ≤ roundF32 (L:ℚ) := le_roundF32 hLq
    have h2eL : (2:ℚ)^(Int.log 2 ((L:ℚ))) ≤ (L:ℚ) := two_zpow_le_self hLq
    have h24num : (2:ℚ)^(24:ℤ) = 16777216 := by norm_num
    have hB : (2:ℚ)^(24:ℤ) ≤ roundF32 (L:ℚ) := by
      set eL : ℤ := Int.log 2 ((L:ℚ)) with heLdef
      by_cases h25 : 25 ≤ eL
      · have hb : (2:ℚ)^eL = 2^(eL-24) * 2^(24:ℤ) := by
          rw [← two_zpow_add, sub_add_cancel]
        have hc2 : (2:ℚ) ≤ 2^(eL-24) := by
          have h1 : (2:ℚ)^(1:ℤ) ≤ 2^(eL-24) := zpow_le_zpow_right₀ (by norm_num) (by omega)
          simpa using h1
        nlinarith [hB1, h2eL, hb, hc2, h24num]
      · have heq : eL = 24 := by omega
        rw [heq] at hB1
        norm_num at hB1
        have hL1 : (2:ℚ)^(24:ℤ) + 1 ≤ (L:ℚ) := by
          have h1 : (2^24 + 1 : ℕ) ≤ L := by omega
          have h2 : ((2^24 + 1 : ℕ):ℚ) ≤ (L:ℚ) := by exact_mod_cast h1
          calc (2:ℚ)^(24:ℤ) + 1 = ((2^24 + 1 : ℕ):ℚ) := by norm_num
          _ ≤ (L:ℚ) := h2
        linarith
    have hBpos : (0:ℚ) < roundF32 (L:ℚ) := roundF32_pos hLq
    set x : ℚ := (n:ℚ) / roundF32 (L:ℚ) with hxdef
    have hx : 0 < x := div_pos hn0 hBpos
    have hxle1 : x ≤ 1 := by
      rw [hxdef, div_le_one hBpos]
      have h1 : (n:ℚ) ≤ (2:ℚ)^(24:ℤ) := by
        have h2 : (n:ℚ) ≤ ((2^24:ℕ):ℚ) := by exact_mod_cast hn
        have h3 : ((2^24:ℕ):ℚ) = (2:ℚ)^(24:ℤ) := by norm_num
        linarith [h3 ▸ h2]
      linarith
    by_cases hx1 : x = 1
    · rw [hx1]
      have h1 : roundF32 (1:ℚ) = 1 := by
        have h2 := roundF32_natCast (n := 1) (by norm_num)
        simpa using h2
      rw [h1]
      simp
    · have hxlt1 : x < 1 := lt_of_le_of_ne hxle1 hx1
      set e2 : ℤ := Int.log 2 x with he2
      have he2neg : e2 < 0 := by
        by_contra hcon
        push_neg at hcon
        have h1 : (2:ℚ)^(0:ℤ) ≤ 2^e2 := zpow_le_zpow_right₀ (by norm_num) hcon
        norm_num at h1
        have h2 := two_zpow_le_self hx
        linarith
      have hup : roundF32 x ≤ 1 := by
        have h1 : roundF32 x ≤ x + 2^(e2-24) := roundF32_le hx
        have h2 : (2:ℚ)^(e2-24) < 2^(e2-23) := zpow_lt_zpow_right₀ (by norm_num) (by omega)
        have h3 : roundF32 x < 1 + 2^(e2-23) := by linarith
        have hδpos : (0:ℚ) < 2^(e2-23) := zpow_pos_two _
        have hgrid : roundF32 x = ((roundHE (x / 2^(e2-23)) : ℤ):ℚ) * 2^(e2-23) :=
          roundF32_of_pos hx
        have hw : (((2:ℤ) ^ ((23-e2).toNat) : ℤ) : ℚ) * 2^(e2-23) = 1 := by
          push_cast
          rw [← zpow_natCast (2:ℚ) ((23-e2).toNat),
            Int.toNat_of_nonneg (by omega : (0:ℤ) ≤ 23 - e2), ← two_zpow_add]
          norm_num
        have hlt' : ((roundHE (x / 2^(e2-23)) : ℤ):ℚ) * 2^(e2-23) <
            (((2:ℤ) ^ ((23-e2).toNat) : ℤ) : ℚ) * 2^(e2-23) + 2^(e2-23) := by
          rw [hw, ← hgrid]
          exact h3
        have h4 := grid_le hδpos hlt'
        rw [hw] at h4
        rw [hgrid]
        exact h4
      have hlo : (0:ℚ) < roundF32 x := roundF32_pos hx
      rw [Int.ceil_eq_iff]
      exact ⟨by push_cast; linarith, by push_cast; exact hup⟩

/-! ## The retained-count computation of the serializer -/

/-- Model of the Rust expression
`(points.len() as f32 / node.level_of_detail as f32).ceil() as usize`.
The `lod = 0` branch models the IEEE results `NaN as usize = 0` (for
`0.0 / 0.0`) and `inf as usize = usize::MAX` (for `n / 0.0` with `n > 0`);
a negative stride gives a nonpositive quotient whose ceiling casts to 0;
otherwise the value is the rounded quotient, saturated at `usize::MAX`. -/
def numPointsForLod (n : ℕ) (lod : ℤ) : ℕ :=
  if lod = 0 then (if n = 0 then 0 else 2^64 - 1)
  else if lod < 0 then 0
  else min (2^64 - 1) (Int.toNat ⌈roundF32 (roundF32 (n:ℚ) / roundF32 ((lod:ℤ):ℚ))⌉)

/-- In the exact range (point count at most 2 to the 24) the f32 retained
count is the exact ceiling division. -/
theorem numPointsForLod_eq (n : ℕ) (lod : ℤ) (hn : n ≤ 2^24) (hlod : 1 ≤ lod) :
    numPointsForLod n lod = (n + lod.toNat - 1) / lod.toNat := by
  set L : ℕ := lod.toNat with hLdef
  have hL : 1 ≤ L := by omega
  have hcast : ((lod:ℤ):ℚ) = ((L : ℕ):ℚ) := by
    have h1 : ((L:ℕ):ℤ) = lod := Int.toNat_of_nonneg (by omega)
    exact_mod_cast h1.symm
  unfold numPointsForLod
  rw [if_neg (by omega : ¬ lod = 0), if_neg (by omega : ¬ lod < 0)]
  rw [hcast, roundF32_natCast hn, ceil_roundF32_div_eq n L hn hL, ceil_natCast_div n L hL]
  rw [Int.toNat_natCast]
  apply min_eq_right
  have hP : 2^24 ≤ 2^24 * L := Nat.le_mul_of_pos_right _ (by omega)
  have h1 : (n + L - 1) / L ≤ (L * 2^24 + (L - 1)) / L :=
    Nat.div_le_div_right (by omega)
  have h2 : (L * 2^24 + (L - 1)) / L = 2^24 + (L-1)/L := Nat.mul_add_div (by omega) _ _
  have h3 : (L-1)/L = 0 := Nat.div_eq_of_lt (by omega)
  omega

/-- The f32 rounding of 16777217 = 2^24 + 1 loses the final 1 (tie to even). -/
theorem roundF32_pow24_add_one : roundF32 ((16777217 : ℕ):ℚ) = 16777216 := by
  have hlog : Int.log 2 (((16777217 : ℕ):ℚ)) = 24 := by
    apply log2_eq_of_bounds
    · norm_num
    · norm_num
  have hq : (0:ℚ) < ((16777217 : ℕ):ℚ) := by norm_num
  rw [roundF32_of_pos hq, hlog]
  have hfl : ⌊(((16777217 : ℕ):ℚ)) / 2 ^ ((24:ℤ) - 23)⌋ = 8388608 := by
    rw [Int.floor_eq_iff]
    constructor
    · norm_num
    · norm_num
  have harg : (((16777217 : ℕ):ℚ)) / 2 ^ ((24:ℤ) - 23) - (8388608 : ℤ) = 1/2 := by
    norm_num
  rw [roundHE, hfl, harg]
  rw [if_neg (by norm_num), if_neg (by norm_num), if_pos (by decide)]
  norm_num

/-- The f32 rounding of 16777219 = 2^24 + 3 rounds up to 16777220 (tie to even). -/
theorem roundF32_pow24_add_three : roundF32 ((16777219 : ℕ):ℚ) = 16777220 := by
  have hlog : Int.log 2 (((16777219 : ℕ):ℚ)) = 24 := by
    apply log2_eq_of_bounds
    · norm_num
    · norm_num
  have hq : (0:ℚ) < ((16777219 : ℕ):ℚ) := by norm_num
  rw [roundF32_of_pos hq, hlog]
  have hfl : ⌊(((16777219 : ℕ):ℚ)) / 2 ^ ((24:ℤ) - 23)⌋ = 8388609 := by
    rw [Int.floor_eq_iff]
    constructor
    · norm_num
    · norm_num
  have harg : (((16777219 : ℕ):ℚ)) / 2 ^ ((24:ℤ) - 23) - (8388609 : ℤ) = 1/2 := by
    norm_num
  rw [roundHE, hfl, harg]
  rw [if_neg (by norm_num), if_neg (by norm_num), if_neg (by decide)]
  norm_num

/-- Rust `as i32` cast of an f32 value: truncation toward zero,
saturating at the i32 bounds.  (Rust sends NaN to 0; the embedded code
divides by a value the thresholds force positive, and the model's
division-by-zero junk value 0 is also sent to 0, so the NaN case needs
no separate arm.) -/
def i32Cast (q : ℚ) : ℤ :=
  max (-(2 ^ 31)) (min (2 ^ 31 - 1) (if 0 ≤ q then ⌊q⌋ else ⌈q⌉))

theorem i32Cast_ofNat_24 : i32Cast (24 : ℚ) = 24 := by
  unfold i32Cast
  have h24 : ⌊(24 : ℚ)⌋ = 24 := by
    rw [Int.floor_eq_iff]
    constructor
    · norm_num
    · norm_num
  rw [if_pos (by norm_num), h24]
  decide

/-- The f32 division 1000 / 41.66666793823242 rounds up to exactly 24
(the quotient is within half an ulp below 24), although its exact value
is below 24. -/
theorem roundF32_flip : roundF32 (262144000/10922667 : ℚ) = 24 := by
  have hlog : Int.log 2 ((262144000/10922667 : ℚ)) = 4 := by
    apply log2_eq_of_bounds
    · norm_num
    · norm_num
  have hq : (0:ℚ) < (262144000/10922667 : ℚ) := by norm_num
  rw [roundF32_of_pos hq, hlog]
  have hfl : ⌊(262144000/10922667 : ℚ) / 2 ^ ((4:ℤ) - 23)⌋ = 12582911 := by
    rw [Int.floor_eq_iff]
    constructor
    · norm_num
    · norm_num
  have harg : (262144000/10922667 : ℚ) / 2 ^ ((4:ℤ) - 23) - ((12582911 : ℤ) : ℚ) =
      6728363/10922667 := by
    norm_num
  rw [roundHE, hfl, harg]
  rw [if_neg (by norm_num), if_pos (by norm_num)]
  norm_num

/-- At 16777217 = 2^24 + 1 points with stride 1, the code computes one
point fewer than the exact count. -/
theorem numPointsForLod_pow24_add_one : numPointsForLod 16777217 1 = 16777216 := by
  unfold numPointsForLod
  rw [if_neg (by norm_num), if_neg (by norm_num)]
  have h1 : (((1:ℤ)):ℚ) = ((1:ℕ):ℚ) := by norm_num
  rw [h1, roundF32_natCast (by norm_num : (1:ℕ) ≤ 2^24), roundF32_pow24_add_one]
  have h2 : ((16777216:ℚ)) / ((1:ℕ):ℚ) = ((16777216 : ℕ):ℚ) := by norm_num
  rw [h2, roundF32_natCast (by norm_num : (16777216:ℕ) ≤ 2^24)]
  have h3 : ⌈((16777216 : ℕ):ℚ)⌉ = (16777216 : ℤ) := by
    rw [Int.ceil_natCast]
    norm_num
  rw [h3]
  norm_num
  decide

/-- At 16777219 = 2^24 + 3 points with stride 1, the code computes one
point more than the exact count. -/
theorem numPointsForLod_pow24_add_three : numPointsForLod 16777219 1 = 16777220 := by
  unfold numPointsForLod
  rw [if_neg (by norm_num), if_neg (by norm_num)]
  have h1 : (((1:ℤ)):ℚ) = ((1:ℕ):ℚ) := by norm_num
  rw [h1, roundF32_natCast (by norm_num : (1:ℕ) ≤ 2^24), roundF32_pow24_add_three]
  have h2 : ((16777220:ℚ)) / ((1:ℕ):ℚ) = ((16777220:ℚ)) := by norm_num
  rw [h2]
  have hrep : roundF32 ((16777220:ℚ)) = ((16777220:ℚ)) := by
    have hlog : Int.log 2 ((16777220:ℚ)) = 24 := by
      apply log2_eq_of_bounds
      · norm_num
      · norm_num
    apply roundF32_eq_of_grid (by norm_num) 8388610
    rw [hlog]
    norm_num
  rw [hrep]
  have h3 : ⌈(16777220:ℚ)⌉ = (16777220 : ℤ) := by
    rw [(by norm_num : (16777220:ℚ) = ((16777220:ℤ):ℚ)), Int.ceil_intCast]
  rw [h3]
  norm_num
  decide

/-! ## Counting retained indices -/

/-- Number of indices below `n` that the per-point filter
`idx % level_of_detail == 0` retains. -/
def retainedCount (n L : ℕ) : ℕ :=
  ((List.range n).filter (fun i => i % L == 0)).length

theorem retainedCount_eq (n L : ℕ) (hL : 1 ≤ L) :
    retainedCount n L = (n + L - 1) / L := by
  induction n with
  | zero =>
    simp [retainedCount]
    exact (Nat.div_eq_of_lt (by omega)).symm
  | succ n ih =>
    unfold retainedCount at ih ⊢
    rw [List.range_succ, List.filter_append, List.length_append, ih]
    have h2 : n + 1 + L - 1 = n + L := by omega
    have h3 : n + L - 1 + 1 = n + L := by omega
    rw [h2, ← h3, Nat.succ_div, h3]
    have hdvd : (L ∣ n + L) ↔ (L ∣ n) := by
      constructor
      · intro h
        have h4 := Nat.dvd_sub' h (dvd_refl L)
        simpa using h4
      · intro h
        exact Dvd.dvd.add h (dvd_refl L)
    by_cases hd : L ∣ n
    · have hz : n % L = 0 := Nat.dvd_iff_mod_eq_zero.1 hd
      rw [if_pos (hdvd.2 hd)]
      simp [List.filter_cons, hz]
    · have hz : ¬ n % L = 0 := fun hc => hd (Nat.dvd_iff_mod_eq_zero.2 hc)
      rw [if_neg (fun hc => hd (hdvd.1 hc))]
      simp [List.filter_cons, hz]

/-! ## Little-endian byte encoding and in-place buffer writes -/

/-- Little-endian byte quadruple of a 32-bit value.  For the position
floats of a point, the value is the 32-bit pattern of the f32; the
byteorder write of an f32 emits exactly the little-endian bytes of its
bit pattern. -/
def le32 (v : ℕ) : List ℕ :=
  [v % 256, v / 256 % 256, v / 65536 % 256, v / 16777216 % 256]

theorem le32_length (v : ℕ) : (le32 v).length = 4 := by
  simp [le32]

/-- Overwrite of the bytes of `l` starting at `i` with `bs` (unguarded). -/
def writeAt (l : List ℕ) (i : ℕ) (bs : List ℕ) : List ℕ :=
  l.take i ++ bs ++ l.drop (i + bs.length)

/-- Model of a byteorder/index-assignment write into the slice
`buffer[i..]`: panics (`none`) unless the bytes fit inside the buffer. -/
def writeBytes (l : List ℕ) (i : ℕ) (bs : List ℕ) : Option (List ℕ) :=
  if i + bs.length ≤ l.length then some (writeAt l i bs) else none

theorem writeAt_nil (l : List ℕ) (i : ℕ) : writeAt l i [] = l := by
  simp [writeAt]

theorem writeAt_length {l : List ℕ} {i : ℕ} {bs : List ℕ}
    (h : i + bs.length ≤ l.length) : (writeAt l i bs).length = l.length := by
  simp [writeAt]
  omega

theorem writeBytes_eq {l : List ℕ} {i : ℕ} {bs : List ℕ}
    (h : i + bs.length ≤ l.length) : writeBytes l i bs = some (writeAt l i bs) := by
  simp [writeBytes, h]

theorem writeAt_writeAt {l : List ℕ} {i : ℕ} {bs cs : List ℕ}
    (h : i + bs.length + cs.length ≤ l.length) :
    writeAt (writeAt l i bs) (i + bs.length) cs = writeAt l i (bs ++ cs) := by
  unfold writeAt
  have hTlen : (l.take i).length = i := by
    simp
    omega
  have hTBlen : (l.take i ++ bs).length = i + bs.length := by
    simp [hTlen]
  rw [List.take_left' hTBlen]
  rw [List.drop_append_eq_append_drop]
  rw [List.drop_eq_nil_of_le (by omega : (l.take i ++ bs).length ≤ i + bs.length + cs.length)]
  rw [hTBlen, List.drop_drop]
  have h4 : i + bs.length + (i + bs.length + cs.length - (i + bs.length)) =
      i + bs.length + cs.length := by omega
  rw [h4]
  have h5 : i + (bs ++ cs).length = i + bs.length + cs.length := by
    simp
    omega
  rw [h5]
  simp [List.append_assoc]

theorem writeAt_append_left (a c bs : List ℕ) :
    writeAt (a ++ c) a.length bs = a ++ bs ++ c.drop bs.length := by
  unfold writeAt
  rw [List.take_left' rfl, List.drop_append_eq_append_drop]
  rw [List.drop_eq_nil_of_le (by omega : a.length ≤ a.length + bs.length)]
  have h1 : a.length + bs.length - a.length = bs.length := by omega
  rw [h1]
  simp

theorem writeBytes_some_length {l : List ℕ} {i : ℕ} {bs r : List ℕ}
    (h : writeBytes l i bs = some r) : r.length = l.length := by
  unfold writeBytes at h
  split at h
  · cases h
    exact writeAt_length (by assumption)
  · cases h

/-! ## The point model and the serializer -/

/-- Node identifier: the path of child octants from the root.
Modelled from the spec: `NodeId` lives in `octree/node.rs`, which is not
part of the source under verification; the spec describes it as a root
marker followed by an ordered sequence of 8-way child selectors. -/
abbrev NodeId := List (Fin 8)

/-- A stored point as the serializer sees it (spec section on the point
source): a position of three f32 values, kept here as their 32-bit
patterns, and an RGB colour of three bytes.  Modelled from the spec:
`NodeIterator` lives in `octree/node.rs`, outside the verified source. -/
structure Point where
  x : ℕ
  y : ℕ
  z : ℕ
  r : ℕ
  g : ℕ
  b : ℕ
deriving DecidableEq

instance : Inhabited Point := ⟨⟨0, 0, 0, 0, 0, 0⟩⟩

/-- Serialization request record (`pub struct NodesToBlob`). -/
structure NodesToBlob where
  id : NodeId
  level_of_detail : ℤ
deriving DecidableEq

/-- Rust `as usize` cast of an i32 value (two-complement wrap into 64 bits). -/
def usizeOfInt (z : ℤ) : ℕ := (z % (2^64 : ℤ)).toNat

theorem usizeOfInt_of_pos {z : ℤ} (h1 : 0 ≤ z) (h2 : z < 2^64) :
    usizeOfInt z = z.toNat := by
  unfold usizeOfInt
  rw [Int.emod_eq_of_lt h1 h2]

/-- The position-writing loop of `get_nodes_as_binary_blob`: for each
enumerated point whose index survives `idx % level_of_detail != 0`,
write the three position words little-endian and advance by 12.
A zero modulus is a Rust panic (`none`). -/
def posLoop (lodU : ℕ) : List Point → ℕ → ℕ → List ℕ → Option (List ℕ × ℕ)
  | [], _, pos, rv => some (rv, pos)
  | p :: ps, idx, pos, rv =>
    if lodU = 0 then none
    else if idx % lodU ≠ 0 then posLoop lodU ps (idx + 1) pos rv
    else
      match writeBytes rv pos (le32 p.x) with
      | none => none
      | some rv1 =>
        match writeBytes rv1 (pos + 4) (le32 p.y) with
        | none => none
        | some rv2 =>
          match writeBytes rv2 (pos + 8) (le32 p.z) with
          | none => none
          | some rv3 => posLoop lodU ps (idx + 1) (pos + 12) rv3

/-- The colour-writing loop: same filter, then the bytes r, g, b and the
constant alpha byte 255, one indexed store each. -/
def colorLoop (lodU : ℕ) : List Point → ℕ → ℕ → List ℕ → Option (List ℕ × ℕ)
  | [], _, pos, rv => some (rv, pos)
  | p :: ps, idx, pos, rv =>
    if lodU = 0 then none
    else if idx % lodU ≠ 0 then colorLoop lodU ps (idx + 1) pos rv
    else
      match writeBytes rv pos [p.r] with
      | none => none
      | some rv1 =>
        match writeBytes rv1 (pos + 1) [p.g] with
        | none => none
        | some rv2 =>
          match writeBytes rv2 (pos + 2) [p.b] with
          | none => none
          | some rv3 =>
            match writeBytes rv3 (pos + 3) [255] with
            | none => none
            | some rv4 => colorLoop lodU ps (idx + 1) (pos + 4) rv4

/-- The sublist of points whose enumeration index (starting at `idx`)
is a multiple of the stride. -/
def retainedFrom (lodU : ℕ) : ℕ → List Point → List Point
  | _, [] => []
  | idx, p :: ps =>
    if idx % lodU = 0 then p :: retainedFrom lodU (idx + 1) ps
    else retainedFrom lodU (idx + 1) ps

/-- Contiguous position block of a list of points. -/
def posBytes (l : List Point) : List ℕ :=
  l.flatMap (fun p => le32 p.x ++ le32 p.y ++ le32 p.z)

/-- Contiguous colour block: r, g, b and the fixed alpha byte 255. -/
def colorBytes (l : List Point) : List ℕ :=
  l.flatMap (fun p => [p.r, p.g, p.b, 255])

/-- Per-node body of `get_nodes_as_binary_blob`: compute the f32 retained
count, grow the buffer by `4 + 16 * count` zero bytes, write the u32
length field, then the position block, then the colour block. -/
def processNode (ps : List Point) (lod : ℤ) (rv : List ℕ) : Option (ℕ × List ℕ) :=
  match writeBytes (rv ++ List.replicate (4 + 16 * numPointsForLod ps.length lod) 0)
      rv.length (le32 ((numPointsForLod ps.length lod * 16) % 2^32)) with
  | none => none
  | some rv2 =>
    match posLoop (usizeOfInt lod) ps 0 (rv.length + 4) rv2 with
    | none => none
    | some (rv3, pos3) =>
      match colorLoop (usizeOfInt lod) ps 0 pos3 rv3 with
      | none => none
      | some (rv4, _) => some (numPointsForLod ps.length lod, rv4)

/-- Request loop of `get_nodes_as_binary_blob`.  The point source models
`NodeIterator::from_disk(..).collect()`: `.error` is an I/O failure that
the `?` operator propagates.  The outer `Option` models panics. -/
def getNodesLoop (src : NodeId → Except Unit (List Point)) :
    List NodesToBlob → ℕ → List ℕ → Option (Except Unit (ℕ × List ℕ))
  | [], total, rv => some (.ok (total, rv))
  | req :: reqs, total, rv =>
    match src req.id with
    | .error e => some (.error e)
    | .ok ps =>
      match processNode ps req.level_of_detail rv with
      | none => none
      | some (m, rv2) => getNodesLoop src reqs (total + m) rv2

/-- Model of `Octree::get_nodes_as_binary_blob`, including the final
`assert_eq!(4 * nodes.len() + NUM_BYTES_PER_POINT * num_points, rv.len())`
(an assert failure is a panic, hence `none`). -/
def get_nodes_as_binary_blob (src : NodeId → Except Unit (List Point))
    (reqs : List NodesToBlob) : Option (Except Unit (ℕ × List ℕ)) :=
  match getNodesLoop src reqs 0 [] with
  | none => none
  | some (.error e) => some (.error e)
  | some (.ok (total, rv)) =>
    if 4 * reqs.length + 16 * total = rv.length then some (.ok (total, rv)) else none

theorem posBytes_nil : posBytes [] = [] := rfl

theorem posBytes_cons (p : Point) (l : List Point) :
    posBytes (p :: l) = le32 p.x ++ le32 p.y ++ le32 p.z ++ posBytes l := by
  simp [posBytes, List.append_assoc]

theorem posBytes_length (l : List Point) : (posBytes l).length = 12 * l.length := by
  induction l with
  | nil => rfl
  | cons p l ih =>
    rw [posBytes_cons]
    simp [le32, ih]
    ring

theorem colorBytes_nil : colorBytes [] = [] := rfl

theorem colorBytes_cons (p : Point) (l : List Point) :
    colorBytes (p :: l) = [p.r] ++ [p.g] ++ [p.b] ++ [255] ++ colorBytes l := by
  simp [colorBytes]

theorem colorBytes_length (l : List Point) : (colorBytes l).length = 4 * l.length := by
  induction l with
  | nil => rfl
  | cons p l ih =>
    simp [colorBytes] at ih ⊢
    omega

/-- Characterization of the position loop as a single in-place write of
the position block of the retained points. -/
theorem posLoop_char (lodU : ℕ) (hl : 1 ≤ lodU) :
    ∀ (ps : List Point) (idx pos : ℕ) (rv : List ℕ),
    pos + 12 * (retainedFrom lodU idx ps).length ≤ rv.length →
    posLoop lodU ps idx pos rv =
      some (writeAt rv pos (posBytes (retainedFrom lodU idx ps)),
        pos + 12 * (retainedFrom lodU idx ps).length) := by
  intro ps
  induction ps with
  | nil =>
    intro idx pos rv h
    simp [posLoop, retainedFrom, posBytes, writeAt_nil]
  | cons p ps ih =>
    intro idx pos rv h
    by_cases hidx : idx % lodU = 0
    · have hret : retainedFrom lodU idx (p :: ps) = p :: retainedFrom lodU (idx + 1) ps := by
        simp [retainedFrom, hidx]
      rw [hret] at h ⊢
      set k : ℕ := (retainedFrom lodU (idx + 1) ps).length with hk
      have hlen : (p :: retainedFrom lodU (idx + 1) ps).length = k + 1 := by simp
      rw [hlen] at h ⊢
      have hb1 : writeBytes rv pos (le32 p.x) = some (writeAt rv pos (le32 p.x)) :=
        writeBytes_eq (by simp only [le32_length]; omega)
      have hw1len : (writeAt rv pos (le32 p.x)).length = rv.length :=
        writeAt_length (by simp only [le32_length]; omega)
      have hb2 : writeBytes (writeAt rv pos (le32 p.x)) (pos + 4) (le32 p.y) =
          some (writeAt (writeAt rv pos (le32 p.x)) (pos + 4) (le32 p.y)) :=
        writeBytes_eq (by simp only [le32_length, hw1len]; omega)
      have hcomp1 : writeAt (writeAt rv pos (le32 p.x)) (pos + 4) (le32 p.y) =
          writeAt rv pos (le32 p.x ++ le32 p.y) := by
        have h4 : pos + 4 = pos + (le32 p.x).length := by simp only [le32_length]
        rw [h4]
        exact writeAt_writeAt (by simp only [le32_length]; omega)
      have hw2len : (writeAt rv pos (le32 p.x ++ le32 p.y)).length = rv.length :=
        writeAt_length (by simp only [List.length_append, le32_length]; omega)
      have hb3 : writeBytes (writeAt rv pos (le32 p.x ++ le32 p.y)) (pos + 8) (le32 p.z) =
          some (writeAt (writeAt rv pos (le32 p.x ++ le32 p.y)) (pos + 8) (le32 p.z)) :=
        writeBytes_eq (by simp only [le32_length, hw2len]; omega)
      have hcomp2 : writeAt (writeAt rv pos (le32 p.x ++ le32 p.y)) (pos + 8) (le32 p.z) =
          writeAt rv pos (le32 p.x ++ le32 p.y ++ le32 p.z) := by
        have h8 : pos + 8 = pos + (le32 p.x ++ le32 p.y).length := by
          simp only [List.length_append, le32_length]
        rw [h8]
        exact writeAt_writeAt (by simp only [List.length_append, le32_length]; omega)
      have hw3len : (writeAt rv pos (le32 p.x ++ le32 p.y ++ le32 p.z)).length = rv.length :=
        writeAt_length (by simp only [List.length_append, le32_length]; omega)
      have hih := ih (idx + 1) (pos + 12) (writeAt rv pos (le32 p.x ++ le32 p.y ++ le32 p.z))
        (by rw [hw3len, ← hk]; omega)
      have hcomp3 : writeAt (writeAt rv pos (le32 p.x ++ le32 p.y ++ le32 p.z)) (pos + 12)
          (posBytes (retainedFrom lodU (idx + 1) ps)) =
          writeAt rv pos (le32 p.x ++ le32 p.y ++ le32 p.z ++
            posBytes (retainedFrom lodU (idx + 1) ps)) := by
        have h12 : pos + 12 = pos + (le32 p.x ++ le32 p.y ++ le32 p.z).length := by
          simp only [List.length_append, le32_length]
        rw [h12]
        apply writeAt_writeAt
        simp only [List.length_append, le32_length, posBytes_length, ← hk]
        omega
      show posLoop lodU (p :: ps) idx pos rv = _
      unfold posLoop
      rw [if_neg (by omega : ¬ lodU = 0), if_neg (by omega : ¬ idx % lodU ≠ 0)]
      simp only [hb1]
      simp only [hb2]
      simp only [hcomp1]
      simp only [hb3]
      simp only [hcomp2]
      rw [hih, hcomp3, posBytes_cons]
      have harith : pos + 12 + 12 * k = pos + 12 * (k + 1) := by omega
      rw [harith]
    · have hret : retainedFrom lodU idx (p :: ps) = retainedFrom lodU (idx + 1) ps := by
        simp [retainedFrom, hidx]
      rw [hret] at h ⊢
      show posLoop lodU (p :: ps) idx pos rv = _
      unfold posLoop
      rw [if_neg (by omega : ¬ lodU = 0), if_pos (by omega : idx % lodU ≠ 0)]
      exact ih (idx + 1) pos rv h

/-- Characterization of the colour loop as a single in-place write of
the colour block of the retained points. -/
theorem colorLoop_char (lodU : ℕ) (hl : 1 ≤ lodU) :
    ∀ (ps : List Point) (idx pos : ℕ) (rv : List ℕ),
    pos + 4 * (retainedFrom lodU idx ps).length ≤ rv.length →
    colorLoop lodU ps idx pos rv =
      some (writeAt rv pos (colorBytes (retainedFrom lodU idx ps)),
        pos + 4 * (retainedFrom lodU idx ps).length) := by
  intro ps
  induction ps with
  | nil =>
    intro idx pos rv h
    simp [colorLoop, retainedFrom, colorBytes, writeAt_nil]
  | cons p ps ih =>
    intro idx pos rv h
    by_cases hidx : idx % lodU = 0
    · have hret : retainedFrom lodU idx (p :: ps) = p :: retainedFrom lodU (idx + 1) ps := by
        simp [retainedFrom, hidx]
      rw [hret] at h ⊢
      set k : ℕ := (retainedFrom lodU (idx + 1) ps).length with hk
      have hlen : (p :: retainedFrom lodU (idx + 1) ps).length = k + 1 := by simp
      rw [hlen] at h ⊢
      have hb1 : writeBytes rv pos [p.r] = some (writeAt rv pos [p.r]) :=
        writeBytes_eq (by simp only [List.length_singleton]; omega)
      have hw1len : (writeAt rv pos [p.r]).length = rv.length :=
        writeAt_length (by simp only [List.length_singleton]; omega)
      have hb2 : writeBytes (writeAt rv pos [p.r]) (pos + 1) [p.g] =
          some (writeAt (writeAt rv pos [p.r]) (pos + 1) [p.g]) :=
        writeBytes_eq (by simp only [List.length_singleton, hw1len]; omega)
      have hcomp1 : writeAt (writeAt rv pos [p.r]) (pos + 1) [p.g] =
          writeAt rv pos [p.r, p.g] := by
        have h1 : pos + 1 = pos + ([p.r] : List ℕ).length := by simp
        rw [h1]
        have h2 := @writeAt_writeAt rv pos [p.r] [p.g]
          (by simp only [List.length_singleton]; omega)
        simpa using h2
      have hw2len : (writeAt rv pos [p.r, p.g]).length = rv.length :=
        writeAt_length (by simp; omega)
      have hb3 : writeBytes (writeAt rv pos [p.r, p.g]) (pos + 2) [p.b] =
          some (writeAt (writeAt rv pos [p.r, p.g]) (pos + 2) [p.b]) :=
        writeBytes_eq (by simp only [List.length_singleton, hw2len]; omega)
      have hcomp2 : writeAt (writeAt rv pos [p.r, p.g]) (pos + 2) [p.b] =
          writeAt rv pos [p.r, p.g, p.b] := by
        have h1 : pos + 2 = pos + ([p.r, p.g] : List ℕ).length := by simp
        rw [h1]
        have h2 := @writeAt_writeAt rv pos [p.r, p.g] [p.b]
          (by simp; omega)
        simpa using h2
      have hw3len : (writeAt rv pos [p.r, p.g, p.b]).length = rv.length :=
        writeAt_length (by simp; omega)
      have hb4 : writeBytes (writeAt rv pos [p.r, p.g, p.b]) (pos + 3) [255] =
          some (writeAt (writeAt rv pos [p.r, p.g, p.b]) (pos + 3) [255]) :=
        writeBytes_eq (by simp only [List.length_singleton, hw3len]; omega)
      have hcomp3 : writeAt (writeAt rv pos [p.r, p.g, p.b]) (pos + 3) [255] =
          writeAt rv pos [p.r, p.g, p.b, 255] := by
        have h1 : pos + 3 = pos + ([p.r, p.g, p.b] : List ℕ).length := by simp
        rw [h1]
        have h2 := @writeAt_writeAt rv pos [p.r, p.g, p.b] [255]
          (by simp; omega)
        simpa using h2
      have hw4len : (writeAt rv pos [p.r, p.g, p.b, 255]).length = rv.length :=
        writeAt_length (by simp; omega)
      have hih := ih (idx + 1) (pos + 4) (writeAt rv pos [p.r, p.g, p.b, 255])
        (by rw [hw4len, ← hk]; omega)
      have hcomp4 : writeAt (writeAt rv pos [p.r, p.g, p.b, 255]) (pos + 4)
          (colorBytes (retainedFrom lodU (idx + 1) ps)) =
          writeAt rv pos ([p.r, p.g, p.b, 255] ++
            colorBytes (retainedFrom lodU (idx + 1) ps)) := by
        have h1 : pos + 4 = pos + ([p.r, p.g, p.b, 255] : List ℕ).length := by simp
        rw [h1]
        apply writeAt_writeAt
        simp only [colorBytes_length, ← hk]
        simp
        omega
      show colorLoop lodU (p :: ps) idx pos rv = _
      unfold colorLoop
      rw [if_neg (by omega : ¬ lodU = 0), if_neg (by omega : ¬ idx % lodU ≠ 0)]
      simp only [hb1]
      simp only [hb2]
      simp only [hcomp1]
      simp only [hb3]
      simp only [hcomp2]
      simp only [hb4]
      simp only [hcomp3]
      rw [hih, hcomp4]
      have hcb : colorBytes (p :: retainedFrom lodU (idx + 1) ps) =
          [p.r, p.g, p.b, 255] ++ colorBytes (retainedFrom lodU (idx + 1) ps) := by
        simp [colorBytes]
      rw [hcb]
      have harith : pos + 4 + 4 * k = pos + 4 * (k + 1) := by omega
      rw [harith]
    · have hret : retainedFrom lodU idx (p :: ps) = retainedFrom lodU (idx + 1) ps := by
        simp [retainedFrom, hidx]
      rw [hret] at h ⊢
      show colorLoop lodU (p :: ps) idx pos rv = _
      unfold colorLoop
      rw [if_neg (by omega : ¬ lodU = 0), if_pos (by omega : idx % lodU ≠ 0)]
      exact ih (idx + 1) pos rv h

/-- Byte sequence that one request contributes to the output buffer:
u32 length field, position block, colour block, and (only when the f32
retained count exceeds the true one) a run of untouched zero bytes. -/
def nodeChunk (ps : List Point) (lod : ℤ) : List ℕ :=
  le32 ((numPointsForLod ps.length lod * 16) % 2^32)
    ++ posBytes (retainedFrom lod.toNat 0 ps)
    ++ colorBytes (retainedFrom lod.toNat 0 ps)
    ++ List.replicate (16 * (numPointsForLod ps.length lod
          - (retainedFrom lod.toNat 0 ps).length)) 0

theorem nodeChunk_length (ps : List Point) (lod : ℤ)
    (hkm : (retainedFrom lod.toNat 0 ps).length ≤ numPointsForLod ps.length lod) :
    (nodeChunk ps lod).length = 4 + 16 * numPointsForLod ps.length lod := by
  unfold nodeChunk
  simp only [List.length_append, le32_length, posBytes_length, colorBytes_length,
    List.length_replicate]
  omega

/-- Characterization of the per-node serialization when the retained
count does not exceed the f32 count: it appends exactly `nodeChunk`. -/
theorem processNode_char (ps : List Point) (lod : ℤ) (rv : List ℕ)
    (h1 : 1 ≤ lod) (h64 : lod < 2^64)
    (hkm : (retainedFrom lod.toNat 0 ps).length ≤ numPointsForLod ps.length lod) :
    processNode ps lod rv = some (numPointsForLod ps.length lod, rv ++ nodeChunk ps lod) := by
  have hlodU : usizeOfInt lod = lod.toNat := usizeOfInt_of_pos (by omega) h64
  have hl1 : 1 ≤ lod.toNat := by omega
  have hw1 : writeBytes (rv ++ List.replicate (4 + 16 * numPointsForLod ps.length lod) 0)
      rv.length (le32 ((numPointsForLod ps.length lod * 16) % 2^32)) =
      some ((rv ++ le32 ((numPointsForLod ps.length lod * 16) % 2^32))
        ++ List.replicate (16 * numPointsForLod ps.length lod) 0) := by
    rw [writeBytes_eq (by simp [le32_length])]
    have h2 := writeAt_append_left rv
      (List.replicate (4 + 16 * numPointsForLod ps.length lod) 0)
      (le32 ((numPointsForLod ps.length lod * 16) % 2^32))
    rw [h2, List.drop_replicate]
    rw [le32_length]
    have h3 : 4 + 16 * numPointsForLod ps.length lod - 4 =
        16 * numPointsForLod ps.length lod := by omega
    rw [h3]
  have hA1len : (rv ++ le32 ((numPointsForLod ps.length lod * 16) % 2^32)).length =
      rv.length + 4 := by
    simp [le32_length]
  have hw2 : posLoop lod.toNat ps 0 (rv.length + 4)
      ((rv ++ le32 ((numPointsForLod ps.length lod * 16) % 2^32))
        ++ List.replicate (16 * numPointsForLod ps.length lod) 0) =
      some (((rv ++ le32 ((numPointsForLod ps.length lod * 16) % 2^32))
          ++ posBytes (retainedFrom lod.toNat 0 ps))
          ++ List.replicate (16 * numPointsForLod ps.length lod
              - 12 * (retainedFrom lod.toNat 0 ps).length) 0,
        rv.length + 4 + 12 * (retainedFrom lod.toNat 0 ps).length) := by
    rw [posLoop_char lod.toNat hl1 ps 0 (rv.length + 4) _
      (by simp only [List.length_append, List.length_replicate, hA1len]
          omega)]
    rw [← hA1len]
    rw [writeAt_append_left]
    rw [List.drop_replicate, posBytes_length]
  have hw3 : colorLoop lod.toNat ps 0
      (rv.length + 4 + 12 * (retainedFrom lod.toNat 0 ps).length)
      (((rv ++ le32 ((numPointsForLod ps.length lod * 16) % 2^32))
          ++ posBytes (retainedFrom lod.toNat 0 ps))
          ++ List.replicate (16 * numPointsForLod ps.length lod
              - 12 * (retainedFrom lod.toNat 0 ps).length) 0) =
      some ((((rv ++ le32 ((numPointsForLod ps.length lod * 16) % 2^32))
          ++ posBytes (retainedFrom lod.toNat 0 ps))
          ++ colorBytes (retainedFrom lod.toNat 0 ps))
          ++ List.replicate (16 * (numPointsForLod ps.length lod
              - (retainedFrom lod.toNat 0 ps).length)) 0,
        rv.length + 4 + 12 * (retainedFrom lod.toNat 0 ps).length
          + 4 * (retainedFrom lod.toNat 0 ps).length) := by
    have hA2len : ((rv ++ le32 ((numPointsForLod ps.length lod * 16) % 2^32))
        ++ posBytes (retainedFrom lod.toNat 0 ps)).length =
        rv.length + 4 + 12 * (retainedFrom lod.toNat 0 ps).length := by
      simp only [List.length_append, le32_length, posBytes_length]
    rw [colorLoop_char lod.toNat hl1 ps 0 _ _
      (by simp only [List.length_append, List.length_replicate, hA2len]
          omega)]
    rw [← hA2len, writeAt_append_left, List.drop_replicate, colorBytes_length]
    rw [hA2len]
    have h4 : 16 * numPointsForLod ps.length lod
        - 12 * (retainedFrom lod.toNat 0 ps).length
        - 4 * (retainedFrom lod.toNat 0 ps).length =
        16 * (numPointsForLod ps.length lod - (retainedFrom lod.toNat 0 ps).length) := by
      omega
    rw [h4]
  unfold processNode
  rw [hlodU]
  simp only [hw1]
  simp only [hw2]
  simp only [hw3]
  unfold nodeChunk
  simp [List.append_assoc]

/-- The indices below `n` retained by the stride filter, in order. -/
def retainedIdx (n L : ℕ) : List ℕ := (List.range n).filter (fun i => i % L == 0)

theorem retainedIdx_length (n L : ℕ) : (retainedIdx n L).length = retainedCount n L := rfl

/-- The retained sublist is the retained index list looked up in the
point list. -/
theorem retainedFrom_eq (L : ℕ) :
    ∀ (ps : List Point) (idx : ℕ),
    retainedFrom L idx ps =
      (((List.range ps.length).filter (fun j => (idx + j) % L == 0)).map
        (fun j => ps.getD j default)) := by
  intro ps
  induction ps with
  | nil =>
    intro idx
    simp [retainedFrom]
  | cons p ps ih =>
    intro idx
    rw [show (p :: ps).length = ps.length + 1 from rfl, List.range_succ_eq_map]
    rw [List.filter_cons]
    have hpred : ((fun j => (idx + j) % L == 0) ∘ Nat.succ) =
        (fun j => (idx + 1 + j) % L == 0) := by
      funext j
      simp only [Function.comp_apply]
      have h : idx + Nat.succ j = idx + 1 + j := by omega
      rw [h]
    by_cases hidx : idx % L = 0
    · rw [if_pos (by simp [hidx])]
      rw [List.map_cons]
      have h0 : (p :: ps).getD 0 default = p := rfl
      rw [h0]
      rw [List.filter_map, hpred, List.map_map]
      have hmap : ((fun j => (p :: ps).getD j default) ∘ Nat.succ) =
          (fun j => ps.getD j default) := by
        funext j
        rfl
      rw [hmap]
      show retainedFrom L idx (p :: ps) = _
      unfold retainedFrom
      rw [if_pos hidx, ih (idx + 1)]
    · rw [if_neg (by simp [hidx])]
      rw [List.filter_map, hpred, List.map_map]
      have hmap : ((fun j => (p :: ps).getD j default) ∘ Nat.succ) =
          (fun j => ps.getD j default) := by
        funext j
        rfl
      rw [hmap]
      show retainedFrom L idx (p :: ps) = _
      unfold retainedFrom
      rw [if_neg hidx, ih (idx + 1)]

theorem retainedFrom_zero_eq (L : ℕ) (ps : List Point) :
    retainedFrom L 0 ps = (retainedIdx ps.length L).map (fun j => ps.getD j default) := by
  rw [retainedFrom_eq]
  unfold retainedIdx
  have hpred : (fun j => (0 + j) % L == 0) = (fun j : ℕ => j % L == 0) := by
    funext j
    simp
  rw [hpred]

theorem retainedFrom_zero_length (L : ℕ) (ps : List Point) :
    (retainedFrom L 0 ps).length = retainedCount ps.length L := by
  rw [retainedFrom_zero_eq, List.length_map, retainedIdx_length]

/-- The point list a request refers to (its node data on disk). -/
def reqPoints (src : NodeId → Except Unit (List Point)) (r : NodesToBlob) : List Point :=
  match src r.id with
  | .ok ps => ps
  | .error _ => []

/-- Conditions under which one request serializes without a panic: a
positive stride in range and a retained count not exceeding the f32
count. -/
def GoodReq (src : NodeId → Except Unit (List Point)) (r : NodesToBlob) : Prop :=
  1 ≤ r.level_of_detail ∧ r.level_of_detail < 2^64 ∧
  (retainedFrom r.level_of_detail.toNat 0 (reqPoints src r)).length ≤
    numPointsForLod (reqPoints src r).length r.level_of_detail

theorem goodReq_of_small (src : NodeId → Except Unit (List Point)) (r : NodesToBlob)
    (h1 : 1 ≤ r.level_of_detail) (h64 : r.level_of_detail < 2^64)
    (hn : (reqPoints src r).length ≤ 2^24) : GoodReq src r := by
  refine ⟨h1, h64, ?_⟩
  rw [retainedFrom_zero_length, retainedCount_eq _ _ (by omega),
    numPointsForLod_eq _ _ hn h1]

/-- With stride at least 1 and point count at most 2 to the 24, the f32
count coincides with the exact retained count. -/
theorem count_eq_of_small (n : ℕ) (lod : ℤ) (hn : n ≤ 2^24) (h1 : 1 ≤ lod) :
    numPointsForLod n lod = retainedCount n lod.toNat := by
  rw [retainedCount_eq _ _ (by omega), numPointsForLod_eq n lod hn h1]

theorem getNodesLoop_ok (src : NodeId → Except Unit (List Point)) :
    ∀ (reqs : List NodesToBlob),
    (∀ r ∈ reqs, (∃ ps, src r.id = .ok ps) ∧ GoodReq src r) →
    ∀ (total : ℕ) (rv : List ℕ),
    getNodesLoop src reqs total rv =
      some (.ok (total +
          (reqs.map (fun r => numPointsForLod (reqPoints src r).length r.level_of_detail)).sum,
        rv ++ reqs.flatMap (fun r => nodeChunk (reqPoints src r) r.level_of_detail))) := by
  intro reqs
  induction reqs with
  | nil =>
    intro _ total rv
    simp [getNodesLoop]
  | cons r reqs ih =>
    intro h total rv
    obtain ⟨⟨ps, hps⟩, hg⟩ := h r (List.mem_cons_self r reqs)
    have hrp : reqPoints src r = ps := by
      simp [reqPoints, hps]
    obtain ⟨hg1, hg2, hg3⟩ := hg
    show getNodesLoop src (r :: reqs) total rv = _
    unfold getNodesLoop
    simp only [hps]
    simp only [processNode_char ps r.level_of_detail rv hg1 hg2 (by rw [← hrp]; exact hg3)]
    show getNodesLoop src reqs _ _ = _
    rw [ih (fun q hq => h q (List.mem_cons_of_mem r hq))]
    rw [List.map_cons, List.sum_cons, List.flatMap_cons, hrp]
    have hassoc : rv ++ nodeChunk ps r.level_of_detail ++
        reqs.flatMap (fun q => nodeChunk (reqPoints src q) q.level_of_detail) =
        rv ++ (nodeChunk ps r.level_of_detail ++
          reqs.flatMap (fun q => nodeChunk (reqPoints src q) q.level_of_detail)) := by
      simp [List.append_assoc]
    rw [hassoc]
    have harith : total + numPointsForLod ps.length r.level_of_detail +
        (reqs.map (fun q => numPointsForLod (reqPoints src q).length q.level_of_detail)).sum =
        total + (numPointsForLod ps.length r.level_of_detail +
          (reqs.map (fun q => numPointsForLod (reqPoints src q).length q.level_of_detail)).sum) := by
      omega
    rw [harith]

theorem chunks_length (src : NodeId → Except Unit (List Point)) :
    ∀ (reqs : List NodesToBlob),
    (∀ r ∈ reqs, GoodReq src r) →
    (reqs.flatMap (fun r => nodeChunk (reqPoints src r) r.level_of_detail)).length =
      4 * reqs.length +
      16 * (reqs.map (fun r => numPointsForLod (reqPoints src r).length r.level_of_detail)).sum := by
  intro reqs
  induction reqs with
  | nil => simp
  | cons r reqs ih =>
    intro h
    obtain ⟨_, _, hg3⟩ := h r (List.mem_cons_self r reqs)
    rw [List.flatMap_cons, List.length_append,
      nodeChunk_length _ _ hg3, ih (fun q hq => h q (List.mem_cons_of_mem r hq))]
    simp
    omega

/-- Full characterization of the serializer on panic-free inputs. -/
theorem blob_char (src : NodeId → Except Unit (List Point)) (reqs : List NodesToBlob)
    (h : ∀ r ∈ reqs, (∃ ps, src r.id = .ok ps) ∧ GoodReq src r) :
    get_nodes_as_binary_blob src reqs =
      some (.ok (
        (reqs.map (fun r => numPointsForLod (reqPoints src r).length r.level_of_detail)).sum,
        reqs.flatMap (fun r => nodeChunk (reqPoints src r) r.level_of_detail))) := by
  unfold get_nodes_as_binary_blob
  rw [getNodesLoop_ok src reqs h 0 []]
  have hlen := chunks_length src reqs (fun r hr => (h r hr).2)
  simp only [Nat.zero_add, List.nil_append]
  rw [if_pos hlen.symm]

theorem posLoop_some_length (lodU : ℕ) :
    ∀ (ps : List Point) (idx pos : ℕ) (rv r : List ℕ) (p2 : ℕ),
    posLoop lodU ps idx pos rv = some (r, p2) → r.length = rv.length := by
  intro ps
  induction ps with
  | nil =>
    intro idx pos rv r p2 h
    simp [posLoop] at h
    rw [← h.1]
  | cons p ps ih =>
    intro idx pos rv r p2 h
    unfold posLoop at h
    split at h
    · cases h
    · split at h
      · exact ih _ _ rv r p2 h
      · split at h
        · cases h
        · rename_i rv1 h1
          split at h
          · cases h
          · rename_i rv2 h2
            split at h
            · cases h
            · rename_i rv3 h3
              have e1 := writeBytes_some_length h1
              have e2 := writeBytes_some_length h2
              have e3 := writeBytes_some_length h3
              have e4 := ih _ _ rv3 r p2 h
              omega

theorem colorLoop_some_length (lodU : ℕ) :
    ∀ (ps : List Point) (idx pos : ℕ) (rv r : List ℕ) (p2 : ℕ),
    colorLoop lodU ps idx pos rv = some (r, p2) → r.length = rv.length := by
  intro ps
  induction ps with
  | nil =>
    intro idx pos rv r p2 h
    simp [colorLoop] at h
    rw [← h.1]
  | cons p ps ih =>
    intro idx pos rv r p2 h
    unfold colorLoop at h
    split at h
    · cases h
    · split at h
      · exact ih _ _ rv r p2 h
      · split at h
        · cases h
        · rename_i rv1 h1
          split at h
          · cases h
          · rename_i rv2 h2
            split at h
            · cases h
            · rename_i rv3 h3
              split at h
              · cases h
              · rename_i rv4 h4
                have e1 := writeBytes_some_length h1
                have e2 := writeBytes_some_length h2
                have e3 := writeBytes_some_length h3
                have e4 := writeBytes_some_length h4
                have e5 := ih _ _ rv4 r p2 h
                omega

theorem processNode_some_length (ps : List Point) (lod : ℤ) (rv : List ℕ)
    (m : ℕ) (rv4 : List ℕ) (h : processNode ps lod rv = some (m, rv4)) :
    m = numPointsForLod ps.length lod ∧ rv4.length = rv.length + 4 + 16 * m := by
  unfold processNode at h
  split at h
  · cases h
  · rename_i rv2 h1
    split at h
    · cases h
    · rename_i rv3 pos3 h2
      split at h
      · cases h
      · rename_i rv4x p4 h3
        cases h
        have e1 := writeBytes_some_length h1
        have e2 := posLoop_some_length _ _ _ _ _ _ _ h2
        have e3 := colorLoop_some_length _ _ _ _ _ _ _ h3
        simp only [List.length_append, List.length_replicate] at e1
        omega

theorem getNodesLoop_ok_length (src : NodeId → Except Unit (List Point)) :
    ∀ (reqs : List NodesToBlob) (total : ℕ) (rv : List ℕ) (T : ℕ) (B : List ℕ),
    getNodesLoop src reqs total rv = some (.ok (T, B)) →
    ∃ d, T = total + d ∧ B.length = rv.length + 4 * reqs.length + 16 * d := by
  intro reqs
  induction reqs with
  | nil =>
    intro total rv T B h
    simp [getNodesLoop] at h
    refine ⟨0, ?_, ?_⟩
    · omega
    · rw [← h.2]
      simp
  | cons r reqs ih =>
    intro total rv T B h
    unfold getNodesLoop at h
    split at h
    · cases h
    · rename_i ps hps
      split at h
      · cases h
      · rename_i m rv2 hpn
        obtain ⟨hm, hlen⟩ := processNode_some_length _ _ _ _ _ hpn
        obtain ⟨d, hd1, hd2⟩ := ih _ _ _ _ h
        refine ⟨m + d, by omega, ?_⟩
        rw [hd2, hlen]
        simp [List.length_cons]
        omega

/-- The asserted buffer-length postcondition holds on every run that
reaches it: a successful request loop always satisfies the final
`assert_eq!`, so the wrapper returns its value unchanged. -/
theorem blob_of_loop_ok (src : NodeId → Except Unit (List Point))
    (reqs : List NodesToBlob) (T : ℕ) (B : List ℕ)
    (h : getNodesLoop src reqs 0 [] = some (.ok (T, B))) :
    get_nodes_as_binary_blob src reqs = some (.ok (T, B)) ∧
      B.length = 4 * reqs.length + 16 * T := by
  obtain ⟨d, hd1, hd2⟩ := getNodesLoop_ok_length src reqs 0 [] T B h
  have hB : B.length = 4 * reqs.length + 16 * T := by
    simp at hd2
    omega
  constructor
  · unfold get_nodes_as_binary_blob
    simp only [h]
    rw [if_pos hB.symm]
  · exact hB

/-- Propagation of a point-source failure: if every request before the
first failing one serializes cleanly, the loop surfaces the error. -/
theorem getNodesLoop_error (src : NodeId → Except Unit (List Point)) :
    ∀ (reqs : List NodesToBlob) (total : ℕ) (rv : List ℕ),
    (∀ r ∈ reqs, ∀ ps, src r.id = .ok ps → GoodReq src r) →
    (∃ r ∈ reqs, src r.id = .error ()) →
    getNodesLoop src reqs total rv = some (.error ()) := by
  intro reqs
  induction reqs with
  | nil =>
    intro total rv _ hex
    simp at hex
  | cons r reqs ih =>
    intro total rv hgood hex
    cases hsrc : src r.id with
    | error e =>
      cases e
      unfold getNodesLoop
      rw [hsrc]
    | ok ps =>
      have hg := hgood r (List.mem_cons_self r reqs) ps hsrc
      obtain ⟨hg1, hg2, hg3⟩ := hg
      have hrp : reqPoints src r = ps := by
        simp [reqPoints, hsrc]
      unfold getNodesLoop
      simp only [hsrc]
      simp only [processNode_char ps r.level_of_detail rv hg1 hg2
        (by rw [← hrp]; exact hg3)]
      apply ih
      · intro q hq ps2 hq2
        exact hgood q (List.mem_cons_of_mem r hq) ps2 hq2
      · obtain ⟨q, hq, hqe⟩ := hex
        rcases List.mem_cons.1 hq with hq1 | hq2
        · subst hq1
          rw [hsrc] at hqe
          cases hqe
        · exact ⟨q, hq2, hqe⟩

/-- A node with at least one point and stride 0 panics inside the
position loop (remainder with zero modulus). -/
theorem processNode_lod_zero (p : Point) (ps : List Point) (rv : List ℕ) :
    processNode (p :: ps) 0 rv = none := by
  have key : ∀ lod : ℤ, lod = 0 → processNode (p :: ps) lod rv = none := by
    intro lod hlod
    unfold processNode
    generalize numPointsForLod (p :: ps).length lod = M
    have hw : writeBytes (rv ++ List.replicate (4 + 16 * M) 0)
        rv.length (le32 ((M * 16) % 2^32)) =
        some (writeAt (rv ++ List.replicate (4 + 16 * M) 0)
          rv.length (le32 ((M * 16) % 2^32))) := by
      apply writeBytes_eq
      simp [le32_length]
    simp only [hw]
    have hz : usizeOfInt lod = 0 := by
      rw [hlod]
      unfold usizeOfInt
      simp
    rw [hz]
    have hploop : ∀ rv2, posLoop 0 (p :: ps) 0 (rv.length + 4) rv2 = none := by
      intro rv2
      unfold posLoop
      rw [if_pos rfl]
    rw [hploop]
  exact key 0 rfl

/-- A request with stride 0 on a node with at least one point panics. -/
theorem blob_lod_zero_panics (src : NodeId → Except Unit (List Point))
    (id : NodeId) (p : Point) (ps : List Point) (hsrc : src id = .ok (p :: ps)) :
    get_nodes_as_binary_blob src [⟨id, 0⟩] = none := by
  have key : ∀ lod : ℤ, lod = 0 → ∀ rv : List ℕ, processNode (p :: ps) lod rv = none := by
    intro lod hlod rv
    rw [hlod]
    exact processNode_lod_zero p ps rv
  have keyLoop : ∀ lod : ℤ, lod = 0 →
      getNodesLoop src [⟨id, lod⟩] 0 [] = none := by
    intro lod hlod
    unfold getNodesLoop
    rw [show (⟨id, lod⟩ : NodesToBlob).id = id from rfl, hsrc]
    show (match processNode (p :: ps) (⟨id, lod⟩ : NodesToBlob).level_of_detail [] with
      | none => none
      | some (m, rv2) => getNodesLoop src [] (0 + m) rv2) = none
    rw [show (⟨id, lod⟩ : NodesToBlob).level_of_detail = lod from rfl, key lod hlod []]
  have hblob : ∀ lod : ℤ, lod = 0 →
      get_nodes_as_binary_blob src [⟨id, lod⟩] = none := by
    intro lod hlod
    unfold get_nodes_as_binary_blob
    rw [keyLoop lod hlod]
  exact hblob 0 rfl

/-- Claim-shaped byte layout of one node record: a little-endian u32
length field of value `16 * retained_count`, the contiguous position
block of the points at indices 0, L, 2L, ... and then the contiguous
colour block of the same points in the same order, alpha byte 255. -/
def nodeBlobSpec (ps : List Point) (L : ℕ) : List ℕ :=
  le32 (16 * (retainedIdx ps.length L).length)
    ++ (retainedIdx ps.length L).flatMap
        (fun i => le32 (ps.getD i default).x ++ le32 (ps.getD i default).y
          ++ le32 (ps.getD i default).z)
    ++ (retainedIdx ps.length L).flatMap
        (fun i => [(ps.getD i default).r, (ps.getD i default).g, (ps.getD i default).b, 255])

theorem retainedCount_le (n L : ℕ) : retainedCount n L ≤ n := by
  unfold retainedCount
  calc ((List.range n).filter (fun i => i % L == 0)).length ≤ (List.range n).length :=
    List.length_filter_le _ _
  _ = n := List.length_range n

/-- On exact inputs the buffer chunk the code writes is the claim-shaped
layout: equal counts, no padding, and a length field without wrap. -/
theorem nodeChunk_eq_spec (ps : List Point) (lod : ℤ)
    (hn : ps.length ≤ 2^24) (h1 : 1 ≤ lod) :
    nodeChunk ps lod = nodeBlobSpec ps lod.toNat := by
  unfold nodeChunk nodeBlobSpec
  have hm := count_eq_of_small ps.length lod hn h1
  have hk := retainedFrom_zero_length lod.toNat ps
  have hkle : retainedCount ps.length lod.toNat ≤ 2^24 :=
    le_trans (retainedCount_le _ _) hn
  have hfield : (numPointsForLod ps.length lod * 16) % 2^32 =
      16 * (retainedIdx ps.length lod.toNat).length := by
    rw [hm, retainedIdx_length]
    rw [Nat.mod_eq_of_lt (by omega)]
    omega
  rw [hfield]
  have hpad : 16 * (numPointsForLod ps.length lod
      - (retainedFrom lod.toNat 0 ps).length) = 0 := by
    rw [hm, hk]
    omega
  rw [hpad, List.replicate_zero, List.append_nil]
  have hpos : posBytes (retainedFrom lod.toNat 0 ps) =
      (retainedIdx ps.length lod.toNat).flatMap
        (fun i => le32 (ps.getD i default).x ++ le32 (ps.getD i default).y
          ++ le32 (ps.getD i default).z) := by
    rw [retainedFrom_zero_eq]
    unfold posBytes
    rw [List.flatMap_map]
  have hcol : colorBytes (retainedFrom lod.toNat 0 ps) =
      (retainedIdx ps.length lod.toNat).flatMap
        (fun i => [(ps.getD i default).r, (ps.getD i default).g,
          (ps.getD i default).b, 255]) := by
    rw [retainedFrom_zero_eq]
    unfold colorBytes
    rw [List.flatMap_map]
  rw [hpos, hcol]

theorem chunks_eq_spec (fetch : NodeId → List Point) :
    ∀ (reqs : List NodesToBlob),
    (∀ r ∈ reqs, 1 ≤ r.level_of_detail) →
    (∀ r ∈ reqs, (fetch r.id).length ≤ 2^24) →
    reqs.flatMap (fun r => nodeChunk (fetch r.id) r.level_of_detail) =
      reqs.flatMap (fun r => nodeBlobSpec (fetch r.id) r.level_of_detail.toNat) := by
  intro reqs
  induction reqs with
  | nil =>
    intro _ _
    rfl
  | cons r rs ih =>
    intro hlod hsize
    rw [List.flatMap_cons, List.flatMap_cons]
    rw [nodeChunk_eq_spec _ _ (hsize r (List.mem_cons_self r rs))
      (hlod r (List.mem_cons_self r rs))]
    rw [ih (fun q hq => hlod q (List.mem_cons_of_mem r hq))
      (fun q hq => hsize q (List.mem_cons_of_mem r hq))]

/-- The serializer on an all-successful source with exact-range nodes:
claim-shaped characterization. -/
theorem blob_spec_eq (fetch : NodeId → List Point) (reqs : List NodesToBlob)
    (hlod : ∀ r ∈ reqs, 1 ≤ r.level_of_detail ∧ r.level_of_detail < 2^31)
    (hsize : ∀ r ∈ reqs, (fetch r.id).length ≤ 2^24) :
    get_nodes_as_binary_blob (fun i => .ok (fetch i)) reqs =
      some (.ok (
        (reqs.map (fun r => retainedCount (fetch r.id).length r.level_of_detail.toNat)).sum,
        reqs.flatMap (fun r => nodeBlobSpec (fetch r.id) r.level_of_detail.toNat))) := by
  have hrp : ∀ r : NodesToBlob, reqPoints (fun i => .ok (fetch i)) r = fetch r.id := by
    intro r
    simp [reqPoints]
  have hchar := blob_char (fun i => .ok (fetch i)) reqs (by
    intro r hr
    refine ⟨⟨fetch r.id, rfl⟩, ?_⟩
    apply goodReq_of_small
    · exact (hlod r hr).1
    · have := (hlod r hr).2
      omega
    · rw [hrp r]
      exact hsize r hr)
  rw [hchar]
  have hmap : reqs.map (fun r => numPointsForLod
        (reqPoints (fun i => .ok (fetch i)) r).length r.level_of_detail) =
      reqs.map (fun r => retainedCount (fetch r.id).length r.level_of_detail.toNat) := by
    apply List.map_congr_left
    intro r hr
    rw [hrp r]
    exact count_eq_of_small _ _ (hsize r hr) (hlod r hr).1
  have hflat0 : reqs.flatMap (fun r => nodeChunk
        (reqPoints (fun i => .ok (fetch i)) r) r.level_of_detail) =
      reqs.flatMap (fun r => nodeChunk (fetch r.id) r.level_of_detail) := by
    have hfn : (fun r : NodesToBlob =>
        nodeChunk (reqPoints (fun i => .ok (fetch i)) r) r.level_of_detail) =
        (fun r : NodesToBlob => nodeChunk (fetch r.id) r.level_of_detail) := by
      funext r
      rw [hrp r]
    rw [hfn]
  rw [hmap, hflat0,
    chunks_eq_spec fetch reqs (fun r hr => (hlod r hr).1) hsize]

/-! ## The visibility planner -/

/-- Traversal node (source struct `Node` of `octree/node.rs`, spec-modelled:
an id paired with its derived bounding cube).  The cube type and the
geometry operations on it (`math` module) are abstracted by parameters. -/
structure VisNode (C : Type) where
  id : NodeId
  bounding_cube : C

/-- Result record of the visibility planner (`pub struct VisibleNode`);
projected pixel sizes are modelled as exact rationals. -/
structure VisibleNode where
  id : NodeId
  level_of_detail : ℤ
  pixels : ℚ × ℚ

/-- Weight of a full 8-ary tree of the given height, used as the
termination measure of the traversal. -/
def wt : ℕ → ℕ
  | 0 => 1
  | k + 1 => 1 + 8 * wt k

theorem wt_pos (k : ℕ) : 0 < wt k := by
  cases k <;> simp [wt]

def stackW {C : Type} (D : ℕ) (st : List (VisNode C)) : ℕ :=
  (st.map (fun n => wt (D + 1 - n.id.length))).sum

/-- Largest id length stored in the node map. -/
def maxDepth (m : List (NodeId × ℕ)) : ℕ :=
  (m.map (fun p => p.1.length)).foldr max 0

theorem lookup_isSome_len_le (m : List (NodeId × ℕ)) (id : NodeId)
    (h : (m.lookup id).isSome) : id.length ≤ maxDepth m := by
  induction m with
  | nil => simp [List.lookup] at h
  | cons p m ih =>
    simp only [List.lookup] at h
    by_cases hb : id == p.1
    · have heq : id = p.1 := eq_of_beq hb
      subst heq
      simp [maxDepth]
    · have hb' : (id == p.1) = false := by simpa using hb
      rw [hb'] at h
      have := ih h
      simp [maxDepth] at this ⊢
      omega

/-- The work-stack loop of `Octree::get_visible_nodes`.  A popped node is
skipped when the map has no entry for it or its cube misses the frustum
(`maybe_num_points.is_none() || !frustum.intersects(..)`), or when its
projected size is below the thresholds; otherwise its 8 children are
pushed and it is recorded with its level of detail, computed as in the
source: the stored count cast to f32, divided in f32 by a quarter of the
projected area, then cast `as i32` (truncating, saturating). -/
def visLoop {C : Type} (childCube : C → Fin 8 → C) (intersects : C → Bool)
    (pixelsOf : C → ℚ × ℚ) (m : List (NodeId × ℕ)) (useLod : Bool) :
    List (VisNode C) → List VisibleNode → List VisibleNode
  | [], visible => visible
  | node :: rest, visible =>
    if h : (m.lookup node.id).isSome ∧ intersects node.bounding_cube then
      if (pixelsOf node.bounding_cube).1 < 12 ∨ (pixelsOf node.bounding_cube).2 < 12 ∨
          (pixelsOf node.bounding_cube).1 * (pixelsOf node.bounding_cube).2 < 120 then
        visLoop childCube intersects pixelsOf m useLod rest visible
      else
        visLoop childCube intersects pixelsOf m useLod
          ((((List.finRange 8).map (fun i =>
              VisNode.mk (node.id ++ [i]) (childCube node.bounding_cube i))).reverse) ++ rest)
          (visible ++ [⟨node.id,
            if useLod then
              max 1 (i32Cast (roundF32 (roundF32 (((m.lookup node.id).get h.1 : ℕ) : ℚ) /
                ((pixelsOf node.bounding_cube).1 * (pixelsOf node.bounding_cube).2 / 4))))
            else 1,
            pixelsOf node.bounding_cube⟩])
    else
      visLoop childCube intersects pixelsOf m useLod rest visible
  termination_by st _ => stackW (maxDepth m) st
  decreasing_by
  · simp [stackW]
    have := wt_pos (maxDepth m + 1 - node.id.length)
    omega
  · have hlen := lookup_isSome_len_le m node.id h.1
    simp only [stackW, List.map_append, List.sum_append, List.map_reverse, List.sum_reverse,
      List.map_map, List.map_cons, List.sum_cons]
    have h1 : maxDepth m + 1 - node.id.length = (maxDepth m - node.id.length) + 1 := by omega
    have h2 : ((List.finRange 8).map
        ((fun n : VisNode C => wt (maxDepth m + 1 - n.id.length)) ∘ (fun i =>
          VisNode.mk (node.id ++ [i]) (childCube node.bounding_cube i)))).sum
        = 8 * wt (maxDepth m - node.id.length) := by
      have hc : ((fun n : VisNode C => wt (maxDepth m + 1 - n.id.length)) ∘ (fun i : Fin 8 =>
          VisNode.mk (node.id ++ [i]) (childCube node.bounding_cube i)))
          = fun _ => wt (maxDepth m - node.id.length) := by
        funext i
        simp only [Function.comp]
        congr 1
        simp
      rw [hc, List.map_const', List.sum_replicate]
      simp
    rw [h2, h1]
    have := wt_pos (maxDepth m - node.id.length)
    simp [wt]
  · simp [stackW]
    have := wt_pos (maxDepth m + 1 - node.id.length)
    omega

/-- Model of `Octree::get_visible_nodes`: run the traversal from the root
node, then sort by descending projected area (`sort_by` with the
comparator `size_b.partial_cmp(&size_a)`, a stable merge sort). -/
def get_visible_nodes {C : Type} (childCube : C → Fin 8 → C) (intersects : C → Bool)
    (pixelsOf : C → ℚ × ℚ) (m : List (NodeId × ℕ)) (rootCube : C) (useLod : Bool) :
    List VisibleNode :=
  (visLoop childCube intersects pixelsOf m useLod [⟨[], rootCube⟩] []).mergeSort
    (fun a b => decide (b.pixels.1 * b.pixels.2 ≤ a.pixels.1 * a.pixels.2))

/-- Bounding cube of a node id, derived from the root cube along the path. -/
def cubeOf {C : Type} (childCube : C → Fin 8 → C) (root : C) (id : NodeId) : C :=
  id.foldl childCube root

theorem cubeOf_nil {C : Type} (childCube : C → Fin 8 → C) (root : C) :
    cubeOf childCube root [] = root := rfl

theorem cubeOf_concat {C : Type} (childCube : C → Fin 8 → C) (root : C)
    (id : NodeId) (i : Fin 8) :
    cubeOf childCube root (id ++ [i]) = childCube (cubeOf childCube root id) i := by
  unfold cubeOf
  rw [List.foldl_append]
  rfl

/-- All three checks the traversal applies before recording a node and
descending into it. -/
def passChecks {C : Type} (childCube : C → Fin 8 → C) (intersects : C → Bool)
    (pixelsOf : C → ℚ × ℚ) (m : List (NodeId × ℕ)) (root : C) (id : NodeId) : Prop :=
  (m.lookup id).isSome ∧ intersects (cubeOf childCube root id) = true ∧
  ¬((pixelsOf (cubeOf childCube root id)).1 < 12 ∨
    (pixelsOf (cubeOf childCube root id)).2 < 12 ∨
    (pixelsOf (cubeOf childCube root id)).1 * (pixelsOf (cubeOf childCube root id)).2 < 120)

/-- Everything the claims assert about a returned record. -/
def GoodVis {C : Type} (childCube : C → Fin 8 → C) (intersects : C → Bool)
    (pixelsOf : C → ℚ × ℚ) (m : List (NodeId × ℕ)) (root : C) (useLod : Bool)
    (v : VisibleNode) : Prop :=
  (∀ p, p <+: v.id → passChecks childCube intersects pixelsOf m root p) ∧
  v.pixels = pixelsOf (cubeOf childCube root v.id) ∧
  (∃ c, m.lookup v.id = some c ∧
    v.level_of_detail =
      (if useLod then
        max 1 (i32Cast (roundF32 (roundF32 ((c : ℕ) : ℚ) / (v.pixels.1 * v.pixels.2 / 4))))
      else 1))

/-- Stack invariant: every stacked node carries the cube derived from its
id, and all its proper ancestors passed every check. -/
theorem visLoop_invariant {C : Type} (childCube : C → Fin 8 → C) (intersects : C → Bool)
    (pixelsOf : C → ℚ × ℚ) (m : List (NodeId × ℕ)) (root : C) (useLod : Bool) :
    ∀ (stack : List (VisNode C)) (acc : List VisibleNode),
    (∀ n ∈ stack, n.bounding_cube = cubeOf childCube root n.id ∧
      ∀ p, p <+: n.id → p ≠ n.id → passChecks childCube intersects pixelsOf m root p) →
    (∀ v ∈ acc, GoodVis childCube intersects pixelsOf m root useLod v) →
    ∀ v ∈ visLoop childCube intersects pixelsOf m useLod stack acc,
      GoodVis childCube intersects pixelsOf m root useLod v := by
  intro stack acc
  induction stack, acc using visLoop.induct childCube intersects pixelsOf m useLod with
  | case1 acc =>
    intro _ hacc v hv
    simp only [visLoop] at hv
    exact hacc v hv
  | case2 node rest acc h hpx ih =>
    intro hst hacc v hv
    simp only [visLoop, dif_pos h, if_pos hpx] at hv
    exact ih (fun n hn => hst n (List.mem_cons_of_mem node hn)) hacc v hv
  | case3 node rest acc h hpx ih =>
    intro hst hacc v hv
    simp only [visLoop, dif_pos h, if_neg hpx] at hv
    obtain ⟨hcube, hanc⟩ := hst node (List.mem_cons_self node rest)
    have hnodepass : passChecks childCube intersects pixelsOf m root node.id := by
      refine ⟨h.1, ?_, ?_⟩
      · rw [← hcube]
        exact h.2
      · rw [← hcube]
        exact hpx
    apply ih
    · intro n hn
      rcases List.mem_append.1 hn with hn1 | hn2
      · rw [List.mem_reverse] at hn1
        obtain ⟨i, _, hi⟩ := List.mem_map.1 hn1
        subst hi
        constructor
        · show childCube node.bounding_cube i = cubeOf childCube root (node.id ++ [i])
          rw [cubeOf_concat, hcube]
        · intro p hp hne
          rcases List.prefix_concat_iff.1 hp with hp1 | hp2
          · exact absurd hp1 hne
          · rcases eq_or_ne p node.id with hq | hq
            · subst hq
              exact hnodepass
            · exact hanc p hp2 hq
      · exact hst n (List.mem_cons_of_mem node hn2)
    · intro w hw
      rcases List.mem_append.1 hw with hw1 | hw2
      · exact hacc w hw1
      · have hwv : w = ⟨node.id,
            if useLod then
              max 1 (i32Cast (roundF32 (roundF32 (((m.lookup node.id).get h.1 : ℕ) : ℚ) /
                ((pixelsOf node.bounding_cube).1 * (pixelsOf node.bounding_cube).2 / 4))))
            else 1,
            pixelsOf node.bounding_cube⟩ := by
          simpa using hw2
        subst hwv
        refine ⟨?_, ?_, ?_⟩
        · intro p hp
          rcases eq_or_ne p node.id with hq | hq
          · subst hq
            exact hnodepass
          · exact hanc p hp hq
        · show pixelsOf node.bounding_cube = pixelsOf (cubeOf childCube root node.id)
          rw [hcube]
        · refine ⟨(m.lookup node.id).get h.1, ?_, ?_⟩
          · exact (Option.some_get h.1).symm
          · show (if useLod then
                max 1 (i32Cast (roundF32 (roundF32 (((m.lookup node.id).get h.1 : ℕ) : ℚ) /
                  ((pixelsOf node.bounding_cube).1 * (pixelsOf node.bounding_cube).2 / 4))))
              else 1) = _
            rfl
    · exact hv
  | case4 node rest acc h ih =>
    intro hst hacc v hv
    simp only [visLoop, dif_neg h] at hv
    exact ih (fun n hn => hst n (List.mem_cons_of_mem node hn)) hacc v hv

/-- Every record returned by the planner satisfies all claims about it. -/
theorem get_visible_nodes_good {C : Type} (childCube : C → Fin 8 → C)
    (intersects : C → Bool) (pixelsOf : C → ℚ × ℚ) (m : List (NodeId × ℕ))
    (rootCube : C) (useLod : Bool) :
    ∀ v ∈ get_visible_nodes childCube intersects pixelsOf m rootCube useLod,
      GoodVis childCube intersects pixelsOf m rootCube useLod v := by
  intro v hv
  unfold get_visible_nodes at hv
  rw [List.mem_mergeSort] at hv
  apply visLoop_invariant childCube intersects pixelsOf m rootCube useLod
    [⟨[], rootCube⟩] []
  · intro n hn
    have hn' : n = ⟨[], rootCube⟩ := by simpa using hn
    subst hn'
    constructor
    · rfl
    · intro p hp hne
      have hp0 : p = [] := List.prefix_nil.mp hp
      exact absurd hp0 hne
  · intro w hw
    cases hw
  · exact hv

/-- The planner output is sorted by non-increasing projected area. -/
theorem get_visible_nodes_sorted_chain {C : Type} (childCube : C → Fin 8 → C)
    (intersects : C → Bool) (pixelsOf : C → ℚ × ℚ) (m : List (NodeId × ℕ))
    (rootCube : C) (useLod : Bool) :
    List.Chain' (fun a b : VisibleNode => b.pixels.1 * b.pixels.2 ≤ a.pixels.1 * a.pixels.2)
      (get_visible_nodes childCube intersects pixelsOf m rootCube useLod) := by
  unfold get_visible_nodes
  have htrans : ∀ a b c : VisibleNode,
      (fun a b : VisibleNode =>
        decide (b.pixels.1 * b.pixels.2 ≤ a.pixels.1 * a.pixels.2)) a b = true →
      (fun a b : VisibleNode =>
        decide (b.pixels.1 * b.pixels.2 ≤ a.pixels.1 * a.pixels.2)) b c = true →
      (fun a b : VisibleNode =>
        decide (b.pixels.1 * b.pixels.2 ≤ a.pixels.1 * a.pixels.2)) a c = true := by
    intro a b c hab hbc
    simp only [decide_eq_true_eq] at hab hbc ⊢
    exact le_trans hbc hab
  have htotal : ∀ a b : VisibleNode,
      ((fun a b : VisibleNode =>
        decide (b.pixels.1 * b.pixels.2 ≤ a.pixels.1 * a.pixels.2)) a b ||
      (fun a b : VisibleNode =>
        decide (b.pixels.1 * b.pixels.2 ≤ a.pixels.1 * a.pixels.2)) b a) = true := by
    intro a b
    rcases le_total (b.pixels.1 * b.pixels.2) (a.pixels.1 * a.pixels.2) with hle | hle
    · simp [hle]
    · simp [hle]
  have hs := @List.sorted_mergeSort VisibleNode
    (fun a b : VisibleNode => decide (b.pixels.1 * b.pixels.2 ≤ a.pixels.1 * a.pixels.2))
    htrans htotal
    (visLoop childCube intersects pixelsOf m useLod [⟨[], rootCube⟩] [])
  have hp : List.Pairwise
      (fun a b : VisibleNode => b.pixels.1 * b.pixels.2 ≤ a.pixels.1 * a.pixels.2)
      ((visLoop childCube intersects pixelsOf m useLod [⟨[], rootCube⟩] []).mergeSort
        (fun a b : VisibleNode =>
          decide (b.pixels.1 * b.pixels.2 ≤ a.pixels.1 * a.pixels.2))) := by
    apply hs.imp
    intro a b h
    exact of_decide_eq_true h
  exact hp.chain'

/-! ## Octree construction (`Octree::new`) -/

def CURRENT_VERSION : ℤ := 6

/-- Parsed contents of the metadata descriptor `meta.pb` (protobuf
decoding itself is external; `none` below models an open or parse
failure). -/
structure MetaProto where
  version : ℤ
  minCorner : ℚ × ℚ × ℚ
  edge_length : ℚ
deriving DecidableEq

inductive OctreeError
  | invalidVersion (v : ℤ)
  | metaReadError
deriving DecidableEq

/-- One walked directory entry: the final path component
(`path.file_name()`, `none` when absent) and the result of
`fs::metadata(path).len()` (`none` models an I/O failure, which the
source unwraps). -/
structure FileEnt where
  name : Option (List Char)
  len : Option ℕ
deriving DecidableEq

def listEndsWith (p s : List Char) : Bool := p.reverse.isPrefixOf s.reverse

/-- Rust `Path::file_stem`: the part before the final dot, except that a
name whose only dot is leading keeps the whole name. -/
def fileStem (s : List Char) : List Char :=
  match s.reverse.dropWhile (fun c => c ≠ '.') with
  | [] => s
  | _ :: rest => if rest = [] then s else rest.reverse

/-- The skip test of the scan, exactly as written in the source:
`!file_name_str.starts_with("r") && file_name_str.ends_with(".xyz")`. -/
def scanSkip (nm : List Char) : Bool :=
  (!(['r'].isPrefixOf nm)) && listEndsWith (['.', 'x', 'y', 'z']) nm

/-- Directory scan of `Octree::new`: walk entries (errors dropped by
`filter_map(|e| e.ok())`), skip per `scanSkip`, unwrap the metadata
length (panic on failure) and insert `(file_stem, len / 12)`. -/
def scanLoop : List (Except Unit FileEnt) → List (List Char × ℕ) →
    Option (List (List Char × ℕ))
  | [], acc => some acc
  | .error _ :: es, acc => scanLoop es acc
  | .ok f :: es, acc =>
    match f.name with
    | none => scanLoop es acc
    | some nm =>
      if scanSkip nm then scanLoop es acc
      else
        match f.len with
        | none => none
        | some l => scanLoop es ((fileStem nm, l / 12) :: acc)

/-- Model of `Octree::new` over an abstract directory: the legacy
`meta.json` check, the descriptor read and version check, then the scan.
The resulting octree is its node mapping plus the descriptor data. -/
def octreeNew (hasMetaJson : Bool) (metaPb : Option MetaProto)
    (entries : List (Except Unit FileEnt)) :
    Option (Except OctreeError (List (List Char × ℕ) × MetaProto)) :=
  if hasMetaJson then some (.error (.invalidVersion 3))
  else
    match metaPb with
    | none => some (.error .metaReadError)
    | some meta =>
      if meta.version ≠ CURRENT_VERSION then some (.error (.invalidVersion meta.version))
      else
        match scanLoop entries [] with
        | none => none
        | some nodes => some (.ok (nodes, meta))

/-- Modelled from the spec: the canonical NodeId string form is the root
marker r followed by octant digits 0 to 7 (`octree/node.rs` is not part
of the source under verification). -/
def isNodeIdStr (s : List Char) : Bool :=
  match s with
  | 'r' :: ds => ds.all (fun c => c ∈ (['0', '1', '2', '3', '4', '5', '6', '7'] : List Char))
  | _ => false

theorem scanLoop_error_skip : ∀ (es1 es2 : List (Except Unit FileEnt))
    (acc : List (List Char × ℕ)),
    scanLoop (es1 ++ .error () :: es2) acc = scanLoop (es1 ++ es2) acc := by
  intro es1
  induction es1 with
  | nil =>
    intro es2 acc
    rfl
  | cons e es ih =>
    intro es2 acc
    cases e with
    | error u =>
      cases u
      show scanLoop (.error () :: (es ++ .error () :: es2)) acc =
        scanLoop (.error () :: (es ++ es2)) acc
      simp only [scanLoop]
      exact ih es2 acc
    | ok f =>
      show scanLoop (.ok f :: (es ++ .error () :: es2)) acc =
        scanLoop (.ok f :: (es ++ es2)) acc
      simp only [scanLoop]
      cases hn : f.name with
      | none =>
        simp only [hn]
        exact ih es2 acc
      | some nm =>
        simp only [hn]
        by_cases hs : scanSkip nm = true
        · rw [if_pos hs, if_pos hs]
          exact ih es2 acc
        · rw [if_neg hs, if_neg hs]
          cases hl : f.len with
          | none => simp only [hl]
          | some l =>
            simp only [hl]
            exact ih es2 ((fileStem nm, l / 12) :: acc)

/-- Entries that fail during the walk are silently skipped: construction
behaves as if they were not there. -/
theorem octreeNew_walk_error_skip (h : Bool) (m : Option MetaProto)
    (es1 es2 : List (Except Unit FileEnt)) :
    octreeNew h m (es1 ++ .error () :: es2) = octreeNew h m (es1 ++ es2) := by
  unfold octreeNew
  rw [scanLoop_error_skip]

/-- Version-error characterization of construction. -/
theorem octreeNew_invalidVersion_iff (h : Bool) (m : Option MetaProto)
    (es : List (Except Unit FileEnt)) (w : ℤ) :
    octreeNew h m es = some (.error (.invalidVersion w)) ↔
      ((h = true ∧ w = 3) ∨
       (h = false ∧ ∃ mt, m = some mt ∧ mt.version ≠ CURRENT_VERSION ∧ w = mt.version)) := by
  cases h with
  | true =>
    have hred : octreeNew true m es = some (.error (.invalidVersion 3)) := rfl
    rw [hred]
    constructor
    · intro hx
      have h2 := Option.some.inj hx
      injection h2 with h3
      injection h3 with h4
      exact Or.inl ⟨rfl, h4.symm⟩
    · rintro (⟨-, hw⟩ | ⟨hf, -⟩)
      · rw [hw]
      · exact absurd hf (by decide)
  | false =>
    cases m with
    | none =>
      have hred : octreeNew false none es = some (.error .metaReadError) := rfl
      rw [hred]
      constructor
      · intro hx
        have h2 := Option.some.inj hx
        injection h2 with h3
        exact OctreeError.noConfusion h3
      · rintro (⟨hf, -⟩ | ⟨-, mt, hmt, -, -⟩)
        · exact absurd hf (by decide)
        · exact Option.noConfusion hmt
    | some mt =>
      have hred : octreeNew false (some mt) es =
          (if mt.version ≠ CURRENT_VERSION then
            some (.error (.invalidVersion mt.version))
          else
            match scanLoop es [] with
            | none => none
            | some nodes => some (.ok (nodes, mt))) := rfl
      rw [hred]
      by_cases hv : mt.version = CURRENT_VERSION
      · rw [if_neg (by simp [hv])]
        cases hscan : scanLoop es [] with
        | none =>
          simp only [hscan]
          constructor
          · intro hx
            exact Option.noConfusion hx
          · rintro (⟨hf, -⟩ | ⟨-, mt2, hmt2, hne, -⟩)
            · exact absurd hf (by decide)
            · cases Option.some.inj hmt2
              exact absurd hv hne
        | some nodes =>
          simp only [hscan]
          constructor
          · intro hx
            have h2 := Option.some.inj hx
            exact Except.noConfusion h2
          · rintro (⟨hf, -⟩ | ⟨-, mt2, hmt2, hne, -⟩)
            · exact absurd hf (by decide)
            · cases Option.some.inj hmt2
              exact absurd hv hne
      · rw [if_pos hv]
        constructor
        · intro hx
          have h2 := Option.some.inj hx
          injection h2 with h3
          injection h3 with h4
          exact Or.inr ⟨rfl, mt, rfl, hv, h4.symm⟩
        · rintro (⟨hf, -⟩ | ⟨-, mt2, hmt2, -, hw⟩)
          · exact absurd hf (by decide)
          · cases Option.some.inj hmt2
            rw [hw]

theorem retainedFrom_one : ∀ (ps : List Point) (idx : ℕ), retainedFrom 1 idx ps = ps := by
  intro ps
  induction ps with
  | nil =>
    intro idx
    rfl
  | cons p ps ih =>
    intro idx
    unfold retainedFrom
    rw [if_pos (Nat.mod_one idx), ih (idx + 1)]

/-- A successful serializer run always satisfies the length equation
(the wrapper returns only buffers that pass the assert). -/
theorem blob_ok_length (src : NodeId → Except Unit (List Point))
    (reqs : List NodesToBlob) (T : ℕ) (B : List ℕ)
    (h : get_nodes_as_binary_blob src reqs = some (.ok (T, B))) :
    B.length = 4 * reqs.length + 16 * T := by
  unfold get_nodes_as_binary_blob at h
  split at h
  · cases h
  · cases h
  · rename_i total rv heq
    split at h
    · rename_i hcond
      have h2 := Option.some.inj h
      have h3 := Except.ok.inj h2
      have h4 : total = T := congrArg Prod.fst h3
      have h5 : rv = B := congrArg Prod.snd h3
      rw [← h4, ← h5]
      exact hcond.symm
    · cases h

theorem ceil_toNat_eq_retainedCount (n : ℕ) (lod : ℤ) (h1 : 1 ≤ lod) :
    (⌈(n : ℚ) / ((lod : ℤ) : ℚ)⌉).toNat = retainedCount n lod.toNat := by
  have hcast : ((lod : ℤ) : ℚ) = ((lod.toNat : ℕ) : ℚ) := by
    have h2 : ((lod.toNat : ℕ) : ℤ) = lod := Int.toNat_of_nonneg (by omega)
    exact_mod_cast h2.symm
  rw [hcast, ceil_natCast_div n lod.toNat (by omega), Int.toNat_natCast,
    retainedCount_eq _ _ (by omega)]

/-! ## Concrete fixtures used by the claim-level theorems -/

def ptA : Point := ⟨1, 2, 3, 4, 5, 6⟩

def ptB : Point := ⟨7, 8, 9, 10, 11, 12⟩

def ptC : Point := ⟨13, 14, 15, 16, 17, 18⟩

/-- Trivial cube geometry for a concrete planner run: one cube value,
always intersecting, 20 by 20 pixels. -/
def exChild : Unit → Fin 8 → Unit := fun _ _ => ()

def exInter : Unit → Bool := fun _ => true

def exPix : Unit → ℚ × ℚ := fun _ => (20, 20)

def exMap : List (NodeId × ℕ) := [([], 5)]

def exVN : VisibleNode := ⟨[], 1, (20, 20)⟩

/-- When the map has no key below the root, every stacked node with a
nonempty id is skipped. -/
theorem exampleVis_skip (px : Unit → ℚ × ℚ) (m : List (NodeId × ℕ)) (useLod : Bool)
    (hm : ∀ (a : Fin 8) (as : List (Fin 8)), m.lookup (a :: as) = none) :
    ∀ (st : List (VisNode Unit)), (∀ n ∈ st, n.id ≠ []) →
    ∀ acc, visLoop exChild exInter px m useLod st acc = acc := by
  intro st
  induction st with
  | nil =>
    intro _ acc
    simp only [visLoop]
  | cons n st ih =>
    intro h acc
    simp only [visLoop]
    rw [dif_neg]
    · exact ih (fun q hq => h q (List.mem_cons_of_mem n hq)) acc
    · rintro ⟨h1, -⟩
      have hne := h n (List.mem_cons_self n st)
      rcases hid : n.id with _ | ⟨a, as⟩
      · exact hne hid
      · rw [hid, hm a as] at h1
        simp at h1

/-- A planner run over a map holding only the root: the root passes the
checks and is recorded with the stated level of detail; its children are
skipped.  Kept fully symbolic so that concrete instances below stay
cheap to check. -/
theorem exampleVis_root (px : Unit → ℚ × ℚ) (k : ℕ) (useLod : Bool) (L : ℤ)
    (hp : ¬((px ()).1 < 12 ∨ (px ()).2 < 12 ∨ (px ()).1 * (px ()).2 < 120))
    (hL : (if useLod then
        max 1 (i32Cast (roundF32 (roundF32 ((k : ℕ) : ℚ) / ((px ()).1 * (px ()).2 / 4))))
      else 1) = L) :
    get_visible_nodes exChild exInter px [([], k)] () useLod = [⟨[], L, px ()⟩] := by
  have h1 : visLoop exChild exInter px [([], k)] useLod [⟨[], ()⟩] [] = [⟨[], L, px ()⟩] := by
    simp only [visLoop]
    rw [dif_pos ⟨rfl, rfl⟩]
    rw [if_neg hp]
    refine (exampleVis_skip px [([], k)] useLod (fun a as => rfl) _ ?_ _).trans ?_
    · intro n hn
      rw [List.append_nil, List.mem_reverse] at hn
      obtain ⟨i, -, hi⟩ := List.mem_map.1 hn
      rw [← hi]
      simp
    · show [(⟨[], if useLod then
        max 1 (i32Cast (roundF32 (roundF32 ((k : ℕ) : ℚ) / ((px ()).1 * (px ()).2 / 4))))
        else 1, px ()⟩ : VisibleNode)] = [⟨[], L, px ()⟩]
      rw [hL]
  unfold get_visible_nodes
  rw [h1]
  simp [List.mergeSort]

/-- The planner on the trivial geometry returns exactly the root record. -/
theorem exampleVis_eq :
    get_visible_nodes exChild exInter exPix exMap () false = [exVN] :=
  exampleVis_root exPix 5 false 1 (by norm_num [exPix]) rfl

/-- Geometry for a planner run with LOD mode on: 12.5 by
13.333333740234375 pixels, so a quarter of the projected area is the f32
value 41.66666793823242, and a map storing 1000 points at the root. -/
def exPix2 : Unit → ℚ × ℚ := fun _ => (25/2, 10922667/819200)

def exMap2 : List (NodeId × ℕ) := [([], 1000)]

def exVN2 : VisibleNode := ⟨[], 24, (25/2, 10922667/819200)⟩

/-- The planner with LOD mode on computes level of detail 24 here: the
f32 quotient 1000 / 41.66666793823242 rounds up to exactly 24. -/
theorem exampleVis2_eq :
    get_visible_nodes exChild exInter exPix2 exMap2 () true = [exVN2] :=
  exampleVis_root exPix2 1000 true 24 (by norm_num [exPix2]) (by
    rw [if_pos rfl]
    rw [roundF32_natCast (by norm_num : (1000 : ℕ) ≤ 2^24)]
    have hdiv : (((1000 : ℕ) : ℚ)) / ((exPix2 ()).1 * (exPix2 ()).2 / 4) =
        262144000/10922667 := by
      show (((1000 : ℕ) : ℚ)) / ((25/2 : ℚ) * (10922667/819200 : ℚ) / 4) = _
      push_cast
      norm_num
    rw [hdiv, roundF32_flip, i32Cast_ofNat_24]
    decide)

/-- A panic while serializing the first request propagates to the loop. -/
theorem getNodesLoop_head_panic (src : NodeId → Except Unit (List Point))
    (req : NodesToBlob) (rest : List NodesToBlob) (total : ℕ) (rv : List ℕ)
    (ps : List Point) (hsrc : src req.id = .ok ps)
    (hproc : processNode ps req.level_of_detail rv = none) :
    getNodesLoop src (req :: rest) total rv = none := by
  unfold getNodesLoop
  simp only [hsrc, hproc]

/-- A point source whose root read succeeds with one point and whose
every other read fails. -/
def srcPanicThenError : NodeId → Except Unit (List Point) := fun id =>
  match id with
  | [] => .ok [ptA]
  | _ => .error ()

/-- A panic of the request loop propagates through the wrapper. -/
theorem blob_none_of_loop_none (src : NodeId → Except Unit (List Point))
    (reqs : List NodesToBlob) (h : getNodesLoop src reqs 0 [] = none) :
    get_nodes_as_binary_blob src reqs = none := by
  unfold get_nodes_as_binary_blob
  rw [h]

/-- The wrapper surfaces an error of the request loop unchanged. -/
theorem blob_error_of_loop_error (src : NodeId → Except Unit (List Point))
    (reqs : List NodesToBlob)
    (h1 : ∀ r ∈ reqs, ∀ ps, src r.id = .ok ps → GoodReq src r)
    (h2 : ∃ r ∈ reqs, src r.id = .error ()) :
    get_nodes_as_binary_blob src reqs = some (.error ()) := by
  unfold get_nodes_as_binary_blob
  rw [getNodesLoop_error src reqs 0 [] h1 h2]

/-- The serializer on a single node of 2 to the 24 plus 3 points at
stride 1: the f32 arithmetic rounds the count up to 2 to the 24 plus 4,
so the buffer carries a length field of 16 times that larger count and
ends in 16 untouched zero bytes. -/
theorem blob_big_aux : ∀ ps : List Point, ps.length = 16777219 →
    get_nodes_as_binary_blob (fun _ => .ok ps) [⟨[], 1⟩] =
      some (.ok (16777220,
        le32 (16 * 16777220) ++ posBytes ps ++ colorBytes ps ++ List.replicate 16 0)) := by
  intro ps hlen
  have hnum : numPointsForLod ps.length 1 = 16777220 := by
    rw [hlen]
    exact numPointsForLod_pow24_add_three
  have hgood : ∀ r ∈ [(⟨[], 1⟩ : NodesToBlob)],
      (∃ qs, (fun _ : NodeId => (Except.ok ps : Except Unit (List Point))) r.id = .ok qs) ∧
      GoodReq (fun _ => .ok ps) r := by
    intro r hr
    have hr1 : r = ⟨[], 1⟩ := by simpa using hr
    subst hr1
    constructor
    · exact ⟨ps, rfl⟩
    · refine ⟨by norm_num, by norm_num, ?_⟩
      show (retainedFrom 1 0 ps).length ≤ numPointsForLod ps.length 1
      rw [retainedFrom_one, hnum, hlen]
      norm_num
  have hchar := blob_char (fun _ => .ok ps) [⟨[], 1⟩] hgood
  rw [hchar]
  simp only [List.map_cons, List.map_nil, List.sum_cons, List.sum_nil,
    List.flatMap_cons, List.flatMap_nil, List.append_nil]
  show (some (.ok (numPointsForLod ps.length 1 + 0, nodeChunk ps 1)) :
    Option (Except Unit (ℕ × List ℕ))) = _
  have hchunk : nodeChunk ps 1 =
      le32 (16 * 16777220) ++ posBytes ps ++ colorBytes ps ++ List.replicate 16 0 := by
    unfold nodeChunk
    rw [Int.toNat_one, retainedFrom_one, hnum, hlen]
    norm_num
  rw [hnum, hchunk]


/-! ## The claims -/

/-- C1: For panic-free inputs (strides in i32 range and at least 1, at
most 2 to the 24 points per node) the blob is, per request in order, a
little-endian u32 length field of value 16 times the retained count,
then the contiguous position block of the points at indices 0, L, 2L,
..., then the contiguous colour block of the same points in the same
order with alpha byte 255; the claim as stated, with no bound on the
node size, is refuted by the counterexample below. -/
theorem claim1_blob_layout (fetch : NodeId → List Point) (reqs : List NodesToBlob)
    (hlod : ∀ r ∈ reqs, 1 ≤ r.level_of_detail ∧ r.level_of_detail < 2^31)
    (hsize : ∀ r ∈ reqs, (fetch r.id).length ≤ 2^24) :
    get_nodes_as_binary_blob (fun i => .ok (fetch i)) reqs =
      some (.ok (
        (reqs.map (fun r => retainedCount (fetch r.id).length r.level_of_detail.toNat)).sum,
        reqs.flatMap (fun r => nodeBlobSpec (fetch r.id) r.level_of_detail.toNat))) :=
  blob_spec_eq fetch reqs hlod hsize

/-- C1 witness: a three-point node at stride 2 serializes to the
claim-shaped layout with retained count 2. -/
theorem claim1_witness :
    get_nodes_as_binary_blob (fun _ : NodeId => .ok [ptA, ptB, ptC]) [⟨[], 2⟩] =
      some (.ok (2, nodeBlobSpec [ptA, ptB, ptC] 2)) := by
  have h := claim1_blob_layout (fun _ : NodeId => [ptA, ptB, ptC]) [⟨[], 2⟩]
    (by decide) (by decide)
  exact h.trans rfl

/-- C1 counterexample: on a node of 2 to the 24 plus 3 points at stride
1 the blob succeeds, but its length field holds 16 * 16777220 instead of
16 times the retained count 16777219, and 16 zero bytes that are not
part of any point record follow the colour block. -/
theorem claim1_counterexample :
    (get_nodes_as_binary_blob (fun _ => .ok (List.replicate 16777219 ptA)) [⟨[], 1⟩] =
      some (.ok (16777220,
        le32 (16 * 16777220) ++ posBytes (List.replicate 16777219 ptA)
          ++ colorBytes (List.replicate 16777219 ptA) ++ List.replicate 16 0))) ∧
    retainedCount 16777219 1 = 16777219 := by
  refine ⟨blob_big_aux _ (List.length_replicate _ _), ?_⟩
  rw [retainedCount_eq _ _ (by norm_num)]

/-- C2: a successful run always satisfies the asserted length equation;
and under the panic-free preconditions the per-node retained count is
exactly ceil(N / L) (the exact rational ceiling), the returned total is
the sum of these, and the buffer is the exactly-filled layout.  The
unconditional identification of the f32-computed count with ceil(N / L)
is refuted by the counterexample below. -/
theorem claim2_retained_count :
    (∀ (src : NodeId → Except Unit (List Point)) (reqs : List NodesToBlob)
      (T : ℕ) (B : List ℕ),
      get_nodes_as_binary_blob src reqs = some (.ok (T, B)) →
      B.length = 4 * reqs.length + 16 * T) ∧
    (∀ (n : ℕ) (lod : ℤ), 1 ≤ lod →
      (⌈(n : ℚ) / (lod : ℚ)⌉).toNat = retainedCount n lod.toNat) ∧
    (∀ (fetch : NodeId → List Point) (reqs : List NodesToBlob),
      (∀ r ∈ reqs, 1 ≤ r.level_of_detail ∧ r.level_of_detail < 2^31) →
      (∀ r ∈ reqs, (fetch r.id).length ≤ 2^24) →
      get_nodes_as_binary_blob (fun i => .ok (fetch i)) reqs =
        some (.ok ((reqs.map (fun r =>
            (⌈((fetch r.id).length : ℚ) / (r.level_of_detail : ℚ)⌉).toNat)).sum,
          reqs.flatMap (fun r => nodeBlobSpec (fetch r.id) r.level_of_detail.toNat)))) := by
  refine ⟨fun src reqs T B h => blob_ok_length src reqs T B h,
    fun n lod h1 => ceil_toNat_eq_retainedCount n lod h1, ?_⟩
  intro fetch reqs h1 h2
  have hmap : reqs.map (fun r =>
      (⌈((fetch r.id).length : ℚ) / (r.level_of_detail : ℚ)⌉).toNat) =
      reqs.map (fun r => retainedCount (fetch r.id).length r.level_of_detail.toNat) :=
    List.map_congr_left (fun r hr => ceil_toNat_eq_retainedCount _ _ (h1 r hr).1)
  rw [hmap]
  exact blob_spec_eq fetch reqs h1 h2

/-- C2 witness: the ceil-based characterization at a concrete three-point
node with stride 2. -/
theorem claim2_witness :
    get_nodes_as_binary_blob (fun i : NodeId => .ok ((fun _ : NodeId => [ptA, ptB, ptC]) i))
      [⟨[], 2⟩] =
      some (.ok (([(⟨[], 2⟩ : NodesToBlob)].map (fun r =>
          (⌈(((fun _ : NodeId => [ptA, ptB, ptC]) r.id).length : ℚ) /
            (r.level_of_detail : ℚ)⌉).toNat)).sum,
        [(⟨[], 2⟩ : NodesToBlob)].flatMap (fun r =>
          nodeBlobSpec ((fun _ : NodeId => [ptA, ptB, ptC]) r.id) r.level_of_detail.toNat))) :=
  claim2_retained_count.2.2 (fun _ : NodeId => [ptA, ptB, ptC]) [⟨[], 2⟩]
    (by decide) (by decide)

/-- C2 counterexample: at 2 to the 24 plus 3 points and stride 1 the
blob succeeds with total retained count 16777220, while the exact
ceiling ceil(16777219 / 1) is 16777219. -/
theorem claim2_counterexample :
    (∃ B, get_nodes_as_binary_blob (fun _ => .ok (List.replicate 16777219 ptA)) [⟨[], 1⟩] =
        some (.ok (16777220, B))) ∧
    (⌈((16777219 : ℕ) : ℚ) / ((1 : ℤ) : ℚ)⌉).toNat = 16777219 := by
  refine ⟨⟨_, blob_big_aux _ (List.length_replicate _ _)⟩, ?_⟩
  rw [ceil_toNat_eq_retainedCount 16777219 1 (by norm_num),
    retainedCount_eq _ _ (by decide)]
  norm_num [Int.toNat_one]

/-- C3: every record the planner returns passed, along with every
ancestor on its id path, all three checks: a mapping entry exists, the
bounding cube intersects the frustum, and the projected size is not
below the 12 px / 12 px / 120 px thresholds; so no descendant of a
pruned node is ever returned. -/
theorem claim3_pruning {C : Type} (childCube : C → Fin 8 → C) (intersects : C → Bool)
    (pixelsOf : C → ℚ × ℚ) (m : List (NodeId × ℕ)) (rootCube : C) (useLod : Bool) :
    ∀ v ∈ get_visible_nodes childCube intersects pixelsOf m rootCube useLod,
      ∀ p, p <+: v.id → passChecks childCube intersects pixelsOf m rootCube p :=
  fun v hv =>
    (get_visible_nodes_good childCube intersects pixelsOf m rootCube useLod v hv).1

/-- C3 witness: on the trivial geometry the returned root record passed
all checks. -/
theorem claim3_witness :
    exVN ∈ get_visible_nodes exChild exInter exPix exMap () false ∧
    passChecks exChild exInter exPix exMap () [] := by
  have hmem : exVN ∈ get_visible_nodes exChild exInter exPix exMap () false := by
    rw [exampleVis_eq]
    exact List.mem_cons_self _ _
  exact ⟨hmem, claim3_pruning exChild exInter exPix exMap () false exVN hmem []
    ⟨exVN.id, rfl⟩⟩

/-- C4: every returned record's level of detail is at least 1; with LOD
mode off it is exactly 1, and with LOD mode on it is the source's
max(1, (count as f32 / (area / 4)) as i32): the stored count rounded to
f32, divided in f32 by a quarter of the projected area, truncated with
i32 saturation.  The spec's exact-floor formula is refuted by the
counterexample below. -/
theorem claim4_lod_values {C : Type} (childCube : C → Fin 8 → C) (intersects : C → Bool)
    (pixelsOf : C → ℚ × ℚ) (m : List (NodeId × ℕ)) (rootCube : C) (useLod : Bool) :
    ∀ v ∈ get_visible_nodes childCube intersects pixelsOf m rootCube useLod,
      1 ≤ v.level_of_detail ∧
      (useLod = false → v.level_of_detail = 1) ∧
      ∃ c, m.lookup v.id = some c ∧
        v.level_of_detail =
          (if useLod then
            max 1 (i32Cast (roundF32 (roundF32 ((c : ℕ) : ℚ) / (v.pixels.1 * v.pixels.2 / 4))))
          else 1) := by
  intro v hv
  obtain ⟨-, -, c, hc, hlod⟩ :=
    get_visible_nodes_good childCube intersects pixelsOf m rootCube useLod v hv
  refine ⟨?_, ?_, c, hc, hlod⟩
  · cases useLod
    · rw [hlod]
      simp
    · rw [hlod, if_pos rfl]
      exact le_max_left 1 _
  · intro hf
    subst hf
    rw [hlod]
    rfl

/-- C4 witness: the planner run on the trivial geometry with LOD mode
off returns the root with level of detail exactly 1. -/
theorem claim4_witness :
    exVN ∈ get_visible_nodes exChild exInter exPix exMap () false ∧
    1 ≤ exVN.level_of_detail ∧
    (false = false → exVN.level_of_detail = 1) ∧
    ∃ c, exMap.lookup exVN.id = some c ∧
      exVN.level_of_detail =
        (if false then
          max 1 (i32Cast (roundF32 (roundF32 ((c : ℕ) : ℚ) / (exVN.pixels.1 * exVN.pixels.2 / 4))))
        else 1) := by
  have hmem : exVN ∈ get_visible_nodes exChild exInter exPix exMap () false := by
    rw [exampleVis_eq]
    exact List.mem_cons_self _ _
  exact ⟨hmem, claim4_lod_values exChild exInter exPix exMap () false exVN hmem⟩

/-- C4 counterexample: with LOD mode on, 1000 stored points and a
projected area whose quarter is the f32 value 41.66666793823242, the
program returns level of detail 24 (the f32 quotient rounds up to 24.0
and truncates to 24), while the exact formula
max(1, floor(stored_point_count / (projected_area / 4))) gives 23. -/
theorem claim4_counterexample :
    get_visible_nodes exChild exInter exPix2 exMap2 () true = [exVN2] ∧
    exMap2.lookup exVN2.id = some 1000 ∧
    exVN2.level_of_detail = 24 ∧
    max 1 ⌊((1000 : ℕ) : ℚ) / (exVN2.pixels.1 * exVN2.pixels.2 / 4)⌋ = 23 := by
  refine ⟨exampleVis2_eq, rfl, rfl, ?_⟩
  show max 1 ⌊((1000 : ℕ) : ℚ) / ((25/2 : ℚ) * (10922667/819200 : ℚ) / 4)⌋ = 23
  have hdiv : (((1000 : ℕ) : ℚ)) / ((25/2 : ℚ) * (10922667/819200 : ℚ) / 4) =
      262144000/10922667 := by
    push_cast
    norm_num
  rw [hdiv]
  have hfl : ⌊(262144000/10922667 : ℚ)⌋ = 23 := by
    rw [Int.floor_eq_iff]
    constructor
    · norm_num
    · norm_num
  rw [hfl]
  decide

/-- C5: the inverted scan filter admits the metadata descriptor file:
construction on a directory holding only meta.pb (120 bytes) succeeds
and the mapping gains the key "meta" with count 10, although "meta" is
not a node id string. -/
theorem claim5_mapping_key_bug :
    octreeNew false (some ⟨6, (0, 0, 0), 1⟩)
      [.ok ⟨some ['m', 'e', 't', 'a', '.', 'p', 'b'], some 120⟩] =
      some (.ok ([(['m', 'e', 't', 'a'], 10)], ⟨6, (0, 0, 0), 1⟩)) ∧
    isNodeIdStr ['m', 'e', 't', 'a'] = false := ⟨rfl, rfl⟩

/-- C6: entries that fail during the walk are skipped and construction
proceeds as if they were absent (the `filter_map(|e| e.ok())`); the
stronger reading that any per-file I/O failure is tolerated is refuted
by the counterexample below, where a failing metadata length panics. -/
theorem claim6_walk_errors_skipped (h : Bool) (m : Option MetaProto)
    (es1 es2 : List (Except Unit FileEnt)) :
    octreeNew h m (es1 ++ .error () :: es2) = octreeNew h m (es1 ++ es2) :=
  octreeNew_walk_error_skip h m es1 es2

/-- C6 counterexample: a node file whose metadata length read fails is
not skipped: the scan panics (`fs::metadata(..).unwrap()`), so
construction does not return at all. -/
theorem claim6_counterexample :
    octreeNew false (some ⟨6, (0, 0, 0), 1⟩)
      [.ok ⟨some ['r', '0', '.', 'x', 'y', 'z'], none⟩] = none := rfl

/-- C7: the planner output is sorted by non-increasing projected area:
each adjacent pair has the earlier area at least the later one. -/
theorem claim7_sorted_by_area {C : Type} (childCube : C → Fin 8 → C) (intersects : C → Bool)
    (pixelsOf : C → ℚ × ℚ) (m : List (NodeId × ℕ)) (rootCube : C) (useLod : Bool) :
    List.Chain' (fun a b : VisibleNode => b.pixels.1 * b.pixels.2 ≤ a.pixels.1 * a.pixels.2)
      (get_visible_nodes childCube intersects pixelsOf m rootCube useLod) :=
  get_visible_nodes_sorted_chain childCube intersects pixelsOf m rootCube useLod

/-- C8: construction returns an invalid-version error with tag w exactly
when the legacy marker is present (then w = 3), or the descriptor parses
with a version different from 6 (then w is that version); no other run
yields a version error. -/
theorem claim8_version_errors (h : Bool) (m : Option MetaProto)
    (es : List (Except Unit FileEnt)) (w : ℤ) :
    octreeNew h m es = some (.error (.invalidVersion w)) ↔
      ((h = true ∧ w = 3) ∨
       (h = false ∧ ∃ mt, m = some mt ∧ mt.version ≠ CURRENT_VERSION ∧ w = mt.version)) :=
  octreeNew_invalidVersion_iff h m es w

/-- C9: under the panic-free preconditions the serializer returns an
error exactly when some requested node's point stream fails, and the
empty request list yields total 0 and an empty buffer.  Without those
preconditions the claimed equivalence is refuted by the counterexample
below. -/
theorem claim9_error_iff :
    (∀ (src : NodeId → Except Unit (List Point)) (reqs : List NodesToBlob),
      (∀ r ∈ reqs, 1 ≤ r.level_of_detail ∧ r.level_of_detail < 2^64 ∧
        ∀ ps, src r.id = .ok ps → ps.length ≤ 2^24) →
      (get_nodes_as_binary_blob src reqs = some (.error ()) ↔
        ∃ r ∈ reqs, src r.id = .error ())) ∧
    (∀ src : NodeId → Except Unit (List Point),
      get_nodes_as_binary_blob src [] = some (.ok (0, []))) := by
  constructor
  · intro src reqs hgood
    constructor
    · intro herr
      by_contra hno
      push_neg at hno
      have hall : ∀ r ∈ reqs, (∃ ps, src r.id = .ok ps) ∧ GoodReq src r := by
        intro r hr
        have hok : ∃ ps, src r.id = .ok ps := by
          cases hsrc : src r.id with
          | error e =>
            cases e
            exact absurd hsrc (hno r hr)
          | ok ps => exact ⟨ps, rfl⟩
        obtain ⟨ps, hps⟩ := hok
        refine ⟨⟨ps, hps⟩, ?_⟩
        apply goodReq_of_small
        · exact (hgood r hr).1
        · exact (hgood r hr).2.1
        · have hrp : reqPoints src r = ps := by simp [reqPoints, hps]
          rw [hrp]
          exact (hgood r hr).2.2 ps hps
      have hchar := blob_char src reqs hall
      rw [herr] at hchar
      exact Except.noConfusion (Option.some.inj hchar)
    · intro hex
      apply blob_error_of_loop_error src reqs
      · intro r hr ps hps
        apply goodReq_of_small
        · exact (hgood r hr).1
        · exact (hgood r hr).2.1
        · have hrp : reqPoints src r = ps := by simp [reqPoints, hps]
          rw [hrp]
          exact (hgood r hr).2.2 ps hps
      · exact hex
  · intro src
    rfl

/-- C9 witness: a source that always fails makes the one-request blob an
error, and the empty request list returns total 0 and an empty buffer. -/
theorem claim9_witness :
    (get_nodes_as_binary_blob (fun _ : NodeId => (Except.error () : Except Unit (List Point)))
        [⟨[], 1⟩] = some (.error ()) ↔
      ∃ r ∈ [(⟨[], 1⟩ : NodesToBlob)],
        (fun _ : NodeId => (Except.error () : Except Unit (List Point))) r.id = .error ()) ∧
    get_nodes_as_binary_blob (fun _ : NodeId => (Except.error () : Except Unit (List Point)))
      [] = some (.ok (0, [])) :=
  ⟨claim9_error_iff.1 (fun _ => .error ()) [⟨[], 1⟩]
    (by
      intro r hr
      have hr1 : r = ⟨[], 1⟩ := by simpa using hr
      subst hr1
      exact ⟨by norm_num, by norm_num, fun ps hps => nomatch hps⟩),
   claim9_error_iff.2 (fun _ => .error ())⟩

/-- C9 counterexample: with a first request of stride 0 on a nonempty
node and a second whose stream fails, the call panics (returns no value
at all) instead of surfacing the stream error: the claimed equivalence
fails without the stride precondition. -/
theorem claim9_counterexample :
    get_nodes_as_binary_blob srcPanicThenError [⟨[], 0⟩, ⟨[0], 1⟩] = none ∧
    srcPanicThenError [0] = .error () := by
  constructor
  · have hloop : getNodesLoop srcPanicThenError [⟨[], 0⟩, ⟨[0], 1⟩] 0 [] = none :=
      getNodesLoop_head_panic srcPanicThenError ⟨[], 0⟩ [⟨[0], 1⟩] 0 [] [ptA] rfl
        (processNode_lod_zero ptA [] [])
    exact blob_none_of_loop_none _ _ hloop
  · rfl

/-- C10: under the preconditions (strides at least 1 in i32 range, at
most 2 to the 24 points per node) the serializer never panics; a request
of stride 0 on a node with at least one stored point always panics.  The
unconditional "stride 0 always panics" is refuted by the counterexample
below (a stride-0 request on an empty node succeeds). -/
theorem claim10_totality :
    (∀ (fetch : NodeId → List Point) (reqs : List NodesToBlob),
      (∀ r ∈ reqs, 1 ≤ r.level_of_detail ∧ r.level_of_detail < 2^31) →
      (∀ r ∈ reqs, (fetch r.id).length ≤ 2^24) →
      get_nodes_as_binary_blob (fun i => .ok (fetch i)) reqs ≠ none) ∧
    (∀ (src : NodeId → Except Unit (List Point)) (id : NodeId) (p : Point) (ps : List Point),
      src id = .ok (p :: ps) →
      get_nodes_as_binary_blob src [⟨id, 0⟩] = none) := by
  constructor
  · intro fetch reqs h1 h2
    rw [blob_spec_eq fetch reqs h1 h2]
    exact Option.some_ne_none _
  · exact blob_lod_zero_panics

/-- C10 witness: a one-point node at stride 1 serializes without a
panic; the same node requested at stride 0 panics. -/
theorem claim10_witness :
    get_nodes_as_binary_blob (fun i : NodeId => .ok ((fun _ : NodeId => [ptA]) i))
      [⟨[], 1⟩] ≠ none ∧
    get_nodes_as_binary_blob srcPanicThenError [⟨[], 0⟩] = none :=
  ⟨claim10_totality.1 (fun _ : NodeId => [ptA]) [⟨[], 1⟩]
      (by decide) (by decide),
   claim10_totality.2 srcPanicThenError [] ptA [] rfl⟩

/-- C10 counterexample: a stride-0 request on an empty node does not
panic: it succeeds with total 0 and the four-byte zero length field. -/
theorem claim10_counterexample :
    get_nodes_as_binary_blob (fun _ : NodeId => .ok []) [⟨[], 0⟩] =
      some (.ok (0, [0, 0, 0, 0])) := rfl

end PointCloud
